import Mathlib

/-!
Verification of the dense-matrix linear-algebra core (src/src/matrix/index.ts).

Numbers are embedded as exact reals (the spec's "exact over an exact-real
embedding" reading).  A matrix is a record of row count, column count and a
row-major data list, exactly as in the source.  Functions of the source that
throw are modelled as `Except String` returning functions whose guard mirrors
the source check; loop bodies that cannot throw at their call sites (every
guard is shown to hold there) are modelled by the corresponding total body
functions.  Division is Lean's total real division (x / 0 = 0); in the source
the only division whose divisor can be zero is the Gram-Schmidt normalization
when the first processed row is the zero vector (JavaScript then produces a
NaN row).  For claims about that floating-point junk behaviour a second,
junk-propagating model (j-prefixed definitions, entries in Option ℝ with
`none` standing for a non-finite value) is given further below; all other
claims use the exact model.
-/

noncomputable section

open scoped BigOperators

namespace LS

/-- The Matrix record of src/src/matrix/types.ts (named `Mat` because Lean's
library already owns the name `Matrix`): rows, cols and row-major data. -/
structure Mat where
  rows : Nat
  cols : Nat
  data : List ℝ

/-- The data-model invariant of the spec: data.length == rows*cols. -/
def WF (A : Mat) : Prop := A.data.length = A.rows * A.cols

/-- Element (i,j) of a matrix, read at flat index i*cols+j as in the source
(out of range reads give junk: undefined in JavaScript, 0 here). -/
def ent (A : Mat) (i j : Nat) : ℝ := A.data.getD (i * A.cols + j) 0

/-- Row-major construction of an r x c matrix from an entry function; this is
how the source's fill loops (`for i .. for j .. C.data[i*cols+j] = ...`) are
rendered: position p of the data list holds the entry at row p / c,
column p % c. -/
def build (r c : Nat) (f : Nat → Nat → ℝ) : Mat :=
  ⟨r, c, (List.range (r * c)).map fun p => f (p / c) (p % c)⟩

/-- makeMatrix with explicit data: throws unless data.length = rows*cols.
With no data the source allocates `new Array(rows*cols)` (length rows*cols,
all slots undefined); every caller in the file overwrites every slot before
reading, so the no-data case is modelled by `buildEmptyData` below. -/
def makeMatrix (rows cols : Nat) (data : List ℝ) : Except String Mat :=
  if data.length ≠ rows * cols then
    .error ("The matrix must have " ++ toString (rows * cols) ++
      " data elements (" ++ toString rows ++ " times " ++ toString cols ++ ")")
  else .ok ⟨rows, cols, data⟩

/-- makeMatrix without the optional data argument. -/
def buildEmptyData (rows cols : Nat) : Mat :=
  ⟨rows, cols, List.replicate (rows * cols) 0⟩

/-- makeRowVector. -/
def makeRowVector (size : Nat) (data : List ℝ) : Except String Mat :=
  makeMatrix 1 size data

/-- makeColumnVector. -/
def makeColumnVector (size : Nat) (data : List ℝ) : Except String Mat :=
  makeMatrix size 1 data

/-- makeEmptyMatrix(): makeMatrix(0,0) with no data, i.e. the 0x0 matrix. -/
def makeEmptyMatrix : Mat := ⟨0, 0, []⟩

/-- clone(A): value copy (the model is value-semantic, so it is the value). -/
def clone (A : Mat) : Mat := ⟨A.rows, A.cols, A.data⟩

/-- Body of row(i, A): data.slice(i*cols, (i+1)*cols) as a 1 x cols matrix. -/
def rowBody (i : Nat) (A : Mat) : Mat :=
  ⟨1, A.cols, (A.data.drop (i * A.cols)).take A.cols⟩

/-- The RangeError message of row(i, A); the source interpolates rows-1 and i. -/
def rowErrMsg (rows : Nat) (i : Int) : String :=
  "Paramenter \x22i\x22 must fall between 0 and " ++ toString ((rows : Int) - 1) ++
    " (its value is " ++ toString i ++ ")"

/-- row(i, A): guarded row extraction. -/
def row (i : Int) (A : Mat) : Except String Mat :=
  if i < 0 ∨ (A.rows : Int) ≤ i then .error (rowErrMsg A.rows i)
  else .ok (rowBody i.toNat A)

/-- Body of column(j, A): pushes data[i*cols+j] for i = 0..rows-1. -/
def columnBody (j : Nat) (A : Mat) : Mat :=
  ⟨A.rows, 1, (List.range A.rows).map fun i => A.data.getD (i * A.cols + j) 0⟩

/-- The RangeError message of column(j, A); the source template reuses the
label "i" but interpolates cols-1 and j. -/
def colErrMsg (cols : Nat) (j : Int) : String :=
  "Paramenter \x22i\x22 must fall between 0 and " ++ toString ((cols : Int) - 1) ++
    " (its value is " ++ toString j ++ ")"

/-- column(j, A): guarded column extraction. -/
def column (j : Int) (A : Mat) : Except String Mat :=
  if j < 0 ∨ (A.cols : Int) ≤ j then .error (colErrMsg A.cols j)
  else .ok (columnBody j.toNat A)

/-- appendRow(A, row): rows+1, cols = A.cols || row.data.length (JavaScript
`||`: 0 is falsy), data concatenated.  The source does not validate the
appended row (its TODO comment). -/
def appendRow (A r : Mat) : Mat :=
  ⟨A.rows + 1, if A.cols = 0 then r.data.length else A.cols, A.data ++ r.data⟩

/-- Body of sum(A, B): elementwise addition over the fill loops. -/
def sumBody (A B : Mat) : Mat :=
  build A.rows A.cols fun i j => ent A i j + ent B i j

/-- sum(A, B): the source guard compares rows, cols and data lengths and
throws `Cannot sum ${JSON.stringify(A)} with ${JSON.stringify(B)}` (the
operand rendering is not modelled, reals having no string form). -/
def sum (A B : Mat) : Except String Mat :=
  if A.rows ≠ B.rows ∨ A.cols ≠ B.cols ∨ A.data.length ≠ B.data.length then
    .error "Cannot sum"
  else .ok (sumBody A B)

/-- smul(scalar, A): data.map(a => a * scalar). -/
def smul (scalar : ℝ) (A : Mat) : Mat :=
  ⟨A.rows, A.cols, A.data.map fun a => a * scalar⟩

/-- sub(A, B) = sum(A, smul(-1, B)), exactly as in the source. -/
def sub (A B : Mat) : Except String Mat := sum A (smul (-1) B)

/-- Total version of sub at call sites where the guard holds. -/
def subBody (A B : Mat) : Mat := sumBody A (smul (-1) B)

/-- Body of mul(A, B): the triple loop C[i,j] = sum over k of A[i,k]*B[k,j]. -/
def mulBody (A B : Mat) : Mat :=
  build A.rows B.cols fun i j => ∑ k ∈ Finset.range A.cols, ent A i k * ent B k j

/-- mul(A, B): guard A.cols == B.rows, else `Cannot multiply ...` is thrown. -/
def mul (A B : Mat) : Except String Mat :=
  if A.cols ≠ B.rows then .error "Cannot multiply" else .ok (mulBody A B)

/-- tr(A): the transpose fill loop T.data[j*A.rows+i] = A.data[i*A.cols+j],
i.e. entry (p,q) of the result is entry (q,p) of A. -/
def tr (A : Mat) : Mat := build A.cols A.rows fun p q => ent A q p

/-- norm(A): square root of the sum of the squares of the elements, iterated
over i < rows, j < cols as in the source. -/
def norm (A : Mat) : ℝ :=
  Real.sqrt (∑ i ∈ Finset.range A.rows, ∑ j ∈ Finset.range A.cols, ent A i j * ent A i j)

/-- Body of dot(x, y): innerProduct accumulated over i < x.data.length. -/
def dotBody (x y : Mat) : ℝ :=
  ∑ i ∈ Finset.range x.data.length, x.data.getD i 0 * y.data.getD i 0

/-- dot(x, y): both arguments must be vectors (one row or one column) of equal
data length, else the source throws. -/
def dot (x y : Mat) : Except String ℝ :=
  if (x.cols ≠ 1 ∧ x.rows ≠ 1) ∨ (y.cols ≠ 1 ∧ y.rows ≠ 1) then
    .error "Only vectors can be used in scalar product"
  else if x.data.length ≠ y.data.length then .error "The vectors differ in length"
  else .ok (dotBody x y)

/-- toArray(A): nested row-major lists, reading data[i*cols+j]. -/
def toArray (A : Mat) : List (List ℝ) :=
  (List.range A.rows).map fun i => (List.range A.cols).map fun j => ent A i j

/-- The fill-and-check loop of fromArray: row i must have length cols, else
`Element ${i} is of size ${len}. It must be ${cols}` is thrown; on success the
rows are concatenated in row-major order. -/
def faRows (cols : Nat) : List (List ℝ) → Nat → Except String (List ℝ)
  | [], _ => .ok []
  | r :: rest, i =>
    if r.length ≠ cols then
      .error ("Element " ++ toString i ++ " is of size " ++ toString r.length ++
        ". It must be " ++ toString cols)
    else (faRows cols rest (i + 1)).map fun d => r ++ d

/-- fromArray(theArray): cols is read as theArray[0].length, which on the
empty array is a property read on undefined and throws a TypeError in
JavaScript before any library code runs. -/
def fromArray (x : List (List ℝ)) : Except String Mat :=
  match x with
  | [] => .error "TypeError: Cannot read properties of undefined (reading 'length')"
  | x0 :: _ => (faRows x0.length x 0).map fun d => ⟨x.length, x0.length, d⟩

/-- The dependency tolerance 1e-10 of gramSchmidt. -/
def tol : ℝ := 1 / 10 ^ 10

/-- The inner projection loop of gramSchmidt, iterating j from `j` while
j < Q.rows with fuel Q.rows - j: subtract the projection of the original row
ai on row j of Q, then test `norm(q) <= 1e-10` and return Q early (rendered
as `none`) if it holds; otherwise the fully reduced vector is returned.
Every callee's guard holds here for well-formed input: row j with j < Q.rows,
dot of two 1 x cols vectors of equal data length, sub and smul on matrices of
identical shape. -/
def gsInner (ai Q : Mat) : Nat → Nat → Mat → Option Mat
  | 0, _, q => some q
  | fuel + 1, j, q =>
    let qj := rowBody j Q
    let q' := subBody q (smul (dotBody qj ai) qj)
    if norm q' ≤ tol then none
    else gsInner ai Q fuel (j + 1) q'

/-- The outer loop of gramSchmidt, iterating i from `i` while i < A.rows with
fuel A.rows - i.  On early return of the inner loop the accumulated Q is the
result; otherwise the reduced vector is normalized by 1/norm(q) and appended. -/
def gsOuter (A : Mat) : Nat → Nat → Mat → Mat
  | 0, _, Q => Q
  | fuel + 1, i, Q =>
    let ai := rowBody i A
    match gsInner ai Q Q.rows 0 (clone ai) with
    | none => Q
    | some q => gsOuter A fuel (i + 1) (appendRow Q (smul (1 / norm q) q))

/-- gramSchmidt(A): classical Gram-Schmidt on the rows of A with early
termination on dependency. -/
def gramSchmidt (A : Mat) : Mat := gsOuter A A.rows 0 makeEmptyMatrix

/-- The evolving x array of backSubstitution: bsVals eq is the state after eq
loop iterations (iteration eq sets index i = R.rows - eq - 1; indices never
set read as junk: undefined in JavaScript, 0 here — for square R every index
read is set first).  get(b, i) is the source's flat read of b; its range
guard holds whenever b has at least R.rows entries, as at every call site. -/
def bsVals (R b : Mat) : Nat → Nat → ℝ
  | 0, _ => 0
  | eq + 1, k =>
    if k = R.rows - 1 - eq then
      (b.data.getD k 0 -
        ∑ j ∈ Finset.Ico (k + 1) R.cols, ent R k j * bsVals R b eq j) / ent R k k
    else bsVals R b eq k

/-- backSubstitution(R, b): run the loop R.rows times and package the values
as a column vector (makeColumnVector's guard holds: the list has R.rows
entries). -/
def backSubstitution (R b : Mat) : Mat :=
  ⟨R.rows, 1, (List.range R.rows).map (bsVals R b R.rows)⟩

/-- qr(A): Q = tr(gramSchmidt(tr(A))), R = mul(tr(Q), A).  The inner mul can
throw only when tr(Q).cols = gramSchmidt(tr A).rows differs from A.rows,
which happens exactly when A has zero columns and a positive number of rows. -/
def qr (A : Mat) : Except String (Mat × Mat) :=
  let Q := tr (gramSchmidt (tr A))
  (mul (tr Q) A).map fun R => (Q, R)

/-- solve(A, b): least-squares / exact solution through qr and back
substitution. -/
def solve (A b : Mat) : Except String Mat := do
  let (Q, R) ← qr A
  let c ← mul (tr Q) b
  pure (backSubstitution R c)

/-! ### Junk-propagating model of the Gram-Schmidt path

JavaScript numbers are IEEE doubles; dividing by an exact zero norm yields
Infinity and multiplying that by 0 yields NaN, which then poisons every later
arithmetic step, and every `NaN <= 1e-10` (and `Infinity <= 1e-10`) test is
false.  To settle the claim about a zero first row, the Gram-Schmidt path is
re-embedded with entries in `Option ℝ`: `some x` is the finite double of exact
value x, `none` is a non-finite value (NaN or an infinity).  Arithmetic on a
non-finite operand is non-finite (true for NaN throughout; for infinities it
is true at every operation reachable on this path, where infinite operands
only ever arise inside products with 0 or as sqrt/`+` of non-negative terms),
division by exact zero is non-finite, and the `<= 1e-10` comparison on a
non-finite value is false.  Out-of-range array reads give undefined, whose
arithmetic is NaN: the junk default is `none` itself. -/

/-- A JavaScript number: a finite double of exact value x (`some x`) or a
non-finite value, NaN or an infinity (`none`). -/
def JNum : Type := Option ℝ

/-- Addition; any non-finite operand gives a non-finite result. -/
def jadd : JNum → JNum → JNum
  | some x, some y => some (x + y)
  | _, _ => none

/-- Multiplication; any non-finite operand gives a non-finite result. -/
def jmul : JNum → JNum → JNum
  | some x, some y => some (x * y)
  | _, _ => none

/-- Division; a zero divisor gives an infinity (non-finite), a non-finite
operand a non-finite result. -/
def jdiv : JNum → JNum → JNum
  | some x, some y => if y = 0 then none else some (x / y)
  | _, _ => none

/-- Math.sqrt; non-finite in gives non-finite out (the radicand here is a sum
of squares, never a negative real). -/
def jsqrt : JNum → JNum
  | some x => some (Real.sqrt x)
  | none => none

/-- The test `v <= t` on a double v: false when v is NaN or +Infinity (the
only non-finite values norm can take). -/
def jleb (v : JNum) (t : ℝ) : Bool :=
  match v with
  | some x => decide (x ≤ t)
  | none => false

/-- A matrix of JavaScript numbers. -/
structure JMat where
  rows : Nat
  cols : Nat
  data : List JNum

/-- Element read, with undefined (none) as junk default. -/
def jent (A : JMat) (i j : Nat) : JNum := A.data.getD (i * A.cols + j) none

/-- Row-major fill-loop construction, as `build` above. -/
def jbuild (r c : Nat) (f : Nat → Nat → JNum) : JMat :=
  ⟨r, c, (List.range (r * c)).map fun p => f (p / c) (p % c)⟩

/-- row(i, A) body. -/
def jrowBody (i : Nat) (A : JMat) : JMat :=
  ⟨1, A.cols, (A.data.drop (i * A.cols)).take A.cols⟩

/-- clone(A). -/
def jclone (A : JMat) : JMat := ⟨A.rows, A.cols, A.data⟩

/-- appendRow(A, row) with JavaScript `A.cols || row.data.length`. -/
def jappendRow (A r : JMat) : JMat :=
  ⟨A.rows + 1, if A.cols = 0 then r.data.length else A.cols, A.data ++ r.data⟩

/-- smul(scalar, A): data.map(a => a * scalar). -/
def jsmul (scalar : JNum) (A : JMat) : JMat :=
  ⟨A.rows, A.cols, A.data.map fun a => jmul a scalar⟩

/-- sum body, as in the exact model. -/
def jsumBody (A B : JMat) : JMat :=
  jbuild A.rows A.cols fun i j => jadd (jent A i j) (jent B i j)

/-- sub(A, B) = sum(A, smul(-1, B)) body. -/
def jsubBody (A B : JMat) : JMat := jsumBody A (jsmul (some (-1)) B)

/-- dot body: innerProduct = 0; for i < x.data.length: += x[i]*y[i]. -/
def jdotBody (x y : JMat) : JNum :=
  (List.range x.data.length).foldl
    (fun acc i => jadd acc (jmul (x.data.getD i none) (y.data.getD i none))) (some 0)

/-- norm(A): sqrt of the accumulated sum of squares (double fold mirroring the
two loops). -/
def jnorm (A : JMat) : JNum :=
  jsqrt ((List.range A.rows).foldl
    (fun acc i => (List.range A.cols).foldl
      (fun acc2 j => jadd acc2 (jmul (jent A i j) (jent A i j))) acc) (some 0))

/-- The inner projection loop of gramSchmidt in the junk model. -/
def jgsInner (ai Q : JMat) : Nat → Nat → JMat → Option JMat
  | 0, _, q => some q
  | fuel + 1, j, q =>
    let qj := jrowBody j Q
    let q' := jsubBody q (jsmul (jdotBody qj ai) qj)
    if jleb (jnorm q') tol then none
    else jgsInner ai Q fuel (j + 1) q'

/-- The outer loop of gramSchmidt in the junk model. -/
def jgsOuter (A : JMat) : Nat → Nat → JMat → JMat
  | 0, _, Q => Q
  | fuel + 1, i, Q =>
    let ai := jrowBody i A
    match jgsInner ai Q Q.rows 0 (jclone ai) with
    | none => Q
    | some q => jgsOuter A fuel (i + 1) (jappendRow Q (jsmul (jdiv (some 1) (jnorm q)) q))

/-- gramSchmidt(A) in the junk model. -/
def jgramSchmidt (A : JMat) : JMat := jgsOuter A A.rows 0 ⟨0, 0, []⟩

/-! ### Verification vocabulary

Views of matrices as functions, used to state and prove the linear-algebra
content of the claims. -/

/-- A (row) vector matrix viewed as a function on coordinate indices; indices
beyond the data read 0. -/
def vecf (v : Mat) : Nat → ℝ := fun k => v.data.getD k 0

/-- The Euclidean inner product of the first n coordinates. -/
def dotf (n : Nat) (u v : Nat → ℝ) : ℝ := ∑ k ∈ Finset.range n, u k * v k

/-- Row i of A as a coordinate function. -/
def avec (A : Mat) (i : Nat) : Nat → ℝ := vecf (rowBody i A)

/-- The span of the first m vectors of a family. -/
def spanUpTo (g : Nat → Nat → ℝ) (m : Nat) : Submodule ℝ (Nat → ℝ) :=
  Submodule.span ℝ {v | ∃ k, k < m ∧ g k = v}

/-- A well-formed 1 x n row-vector matrix. -/
def RVecE (n : Nat) (v : Mat) : Prop :=
  v.rows = 1 ∧ v.cols = n ∧ v.data.length = n

/-- The Gram-Schmidt loop invariant: after i accepted rows the accumulator Q
has i rows, is well-formed, has A's column count (once non-empty), its rows
are orthonormal, row j of A lies in the span of the first j+1 rows of Q, and
row j of Q has positive inner product with row j of A. -/
def Inv (A Q : Mat) (i : Nat) : Prop :=
  Q.rows = i ∧ WF Q ∧ (i = 0 → Q = makeEmptyMatrix) ∧ (0 < i → Q.cols = A.cols) ∧
  (∀ j k, j < i → k < i →
    dotf A.cols (avec Q j) (avec Q k) = if j = k then 1 else 0) ∧
  (∀ j, j < i → avec A j ∈ spanUpTo (avec Q) (j + 1)) ∧
  (∀ j, j < i → 0 < dotf A.cols (avec Q j) (avec A j))

/-- A matrix read as a Mathlib matrix of the stated size. -/
def toMM (m n : Nat) (A : Mat) : Matrix (Fin m) (Fin n) ℝ :=
  Matrix.of fun i j => ent A i.1 j.1

/-! ### Basic lemmas -/

@[simp] theorem rows_build (r c : Nat) (f : Nat → Nat → ℝ) : (build r c f).rows = r := rfl

@[simp] theorem cols_build (r c : Nat) (f : Nat → Nat → ℝ) : (build r c f).cols = c := rfl

@[simp] theorem length_data_build (r c : Nat) (f : Nat → Nat → ℝ) :
    (build r c f).data.length = r * c := by
  simp [build]

theorem WF_build (r c : Nat) (f : Nat → Nat → ℝ) : WF (build r c f) := by
  simp [WF]

theorem getD_data_build (r c : Nat) (f : Nat → Nat → ℝ) (p : Nat) :
    (build r c f).data.getD p 0 = if p < r * c then f (p / c) (p % c) else 0 := by
  rcases Nat.lt_or_ge p (r * c) with h | h
  · simp [build, List.getD_eq_getElem?_getD, List.getElem?_range, h]
  · rw [List.getD_eq_default _ _ (by simpa [build] using h), if_neg (Nat.not_lt.2 h)]

theorem ent_build {r c i j : Nat} (f : Nat → Nat → ℝ) (hi : i < r) (hj : j < c) :
    ent (build r c f) i j = f i j := by
  have hc : 0 < c := lt_of_le_of_lt (Nat.zero_le j) hj
  have hp : i * c + j < r * c := by
    calc i * c + j < i * c + c := by omega
    _ = (i + 1) * c := by ring
    _ ≤ r * c := Nat.mul_le_mul_right c hi
  have h1 : (i * c + j) / c = i := by
    rw [Nat.add_comm, Nat.add_mul_div_right _ _ hc, Nat.div_eq_of_lt hj, Nat.zero_add]
  have h2 : (i * c + j) % c = j := by
    rw [Nat.add_comm, Nat.add_mul_mod_self_right, Nat.mod_eq_of_lt hj]
  show (build r c f).data.getD (i * c + j) 0 = f i j
  rw [getD_data_build, if_pos hp, h1, h2]

theorem Mat_ext {A B : Mat} (hA : WF A) (hB : WF B) (hr : A.rows = B.rows)
    (hc : A.cols = B.cols) (h : ∀ i j, i < A.rows → j < A.cols → ent A i j = ent B i j) :
    A = B := by
  obtain ⟨ra, ca, da⟩ := A
  obtain ⟨rb, cb, db⟩ := B
  simp only at hr hc
  subst hr; subst hc
  simp only [Mat.mk.injEq, true_and]
  unfold WF at hA hB
  simp only at hA hB
  apply List.ext_getElem (by rw [hA, hB])
  intro p h1 h2
  by_cases hc0 : ca = 0
  · exfalso
    rw [hA, hc0, Nat.mul_zero] at h1
    exact Nat.not_lt_zero p h1
  · have hp : p < ra * ca := hA ▸ h1
    have hi : p / ca < ra := Nat.div_lt_of_lt_mul (Nat.mul_comm ra ca ▸ hp)
    have hj : p % ca < ca := Nat.mod_lt _ (Nat.pos_of_ne_zero hc0)
    have hent := h (p / ca) (p % ca) hi hj
    unfold ent at hent
    simp only at hent
    rw [Nat.div_add_mod'] at hent
    rw [List.getD_eq_getElem?_getD, List.getD_eq_getElem?_getD,
      List.getElem?_eq_getElem h1, List.getElem?_eq_getElem h2] at hent
    simpa using hent

@[simp] theorem clone_eq (A : Mat) : clone A = A := rfl

@[simp] theorem rows_rowBody (i : Nat) (A : Mat) : (rowBody i A).rows = 1 := rfl

@[simp] theorem cols_rowBody (i : Nat) (A : Mat) : (rowBody i A).cols = A.cols := rfl

@[simp] theorem rows_smul (c : ℝ) (A : Mat) : (smul c A).rows = A.rows := rfl

@[simp] theorem cols_smul (c : ℝ) (A : Mat) : (smul c A).cols = A.cols := rfl

@[simp] theorem length_data_smul (c : ℝ) (A : Mat) :
    (smul c A).data.length = A.data.length := by
  simp [smul]

@[simp] theorem rows_sumBody (A B : Mat) : (sumBody A B).rows = A.rows := rfl

@[simp] theorem cols_sumBody (A B : Mat) : (sumBody A B).cols = A.cols := rfl

@[simp] theorem rows_subBody (A B : Mat) : (subBody A B).rows = A.rows := rfl

@[simp] theorem cols_subBody (A B : Mat) : (subBody A B).cols = A.cols := rfl

@[simp] theorem rows_mulBody (A B : Mat) : (mulBody A B).rows = A.rows := rfl

@[simp] theorem cols_mulBody (A B : Mat) : (mulBody A B).cols = B.cols := rfl

@[simp] theorem rows_tr (A : Mat) : (tr A).rows = A.cols := rfl

@[simp] theorem cols_tr (A : Mat) : (tr A).cols = A.rows := rfl

@[simp] theorem rows_appendRow (A r : Mat) : (appendRow A r).rows = A.rows + 1 := rfl

@[simp] theorem data_appendRow (A r : Mat) : (appendRow A r).data = A.data ++ r.data := rfl

@[simp] theorem rows_backSubstitution (R b : Mat) : (backSubstitution R b).rows = R.rows := rfl

@[simp] theorem cols_backSubstitution (R b : Mat) : (backSubstitution R b).cols = 1 := rfl

theorem WF_tr (A : Mat) : WF (tr A) := WF_build _ _ _

theorem WF_mulBody (A B : Mat) : WF (mulBody A B) := WF_build _ _ _

theorem WF_sumBody (A B : Mat) : WF (sumBody A B) := WF_build _ _ _

theorem WF_smul {A : Mat} (c : ℝ) (hA : WF A) : WF (smul c A) := by
  simpa [WF] using hA

theorem WF_backSubstitution (R b : Mat) : WF (backSubstitution R b) := by
  simp [WF, backSubstitution]

theorem ent_sumBody {A B : Mat} {i j : Nat} (hi : i < A.rows) (hj : j < A.cols) :
    ent (sumBody A B) i j = ent A i j + ent B i j := ent_build _ hi hj

theorem ent_mulBody {A B : Mat} {i j : Nat} (hi : i < A.rows) (hj : j < B.cols) :
    ent (mulBody A B) i j = ∑ k ∈ Finset.range A.cols, ent A i k * ent B k j :=
  ent_build _ hi hj

theorem ent_tr {A : Mat} {i j : Nat} (hi : i < A.cols) (hj : j < A.rows) :
    ent (tr A) i j = ent A j i := ent_build _ hi hj

/-- Reading the row slice at coordinate k is reading the matrix at (i, k). -/
theorem vecf_rowBody (A : Mat) (i k : Nat) :
    vecf (rowBody i A) k = if k < A.cols then ent A i k else 0 := by
  unfold vecf rowBody ent
  rcases Nat.lt_or_ge k A.cols with h | h
  · simp only [if_pos h, List.getD_eq_getElem?_getD, List.getElem?_take, if_pos h,
      List.getElem?_drop]
  · rw [if_neg (Nat.not_lt.2 h), List.getD_eq_default]
    exact le_trans (le_trans (List.length_take_le _ _) h) (Nat.le_refl k)

theorem vecf_smul (c : ℝ) (v : Mat) (k : Nat) :
    vecf (smul c v) k = vecf v k * c := by
  unfold vecf smul
  rcases Nat.lt_or_ge k v.data.length with h | h
  · simp [List.getD_eq_getElem?_getD, List.getElem?_eq_getElem, h]
  · rw [List.getD_eq_default _ _ (by simpa using h), List.getD_eq_default _ _ h, zero_mul]

theorem vecf_eq_zero_of_le {n : Nat} {v : Mat} (hlen : v.data.length ≤ n) {k : Nat}
    (hk : n ≤ k) : vecf v k = 0 :=
  List.getD_eq_default _ _ (le_trans hlen hk)

theorem RVecE_rowBody {A : Mat} {i : Nat} (hA : WF A) (hi : i < A.rows) :
    RVecE A.cols (rowBody i A) := by
  refine ⟨rfl, rfl, ?_⟩
  unfold rowBody
  simp only [List.length_take, List.length_drop]
  rw [hA]
  have h1 : (i + 1) * A.cols ≤ A.rows * A.cols := Nat.mul_le_mul_right _ hi
  have h2 : (i + 1) * A.cols = i * A.cols + A.cols := by ring
  omega

theorem RVecE_smul {n : Nat} {v : Mat} (c : ℝ) (h : RVecE n v) : RVecE n (smul c v) :=
  ⟨h.1, h.2.1, by simpa using h.2.2⟩

theorem RVecE_subBody {n : Nat} {q : Mat} (r : Mat) (h : RVecE n q) :
    RVecE n (subBody q r) := by
  refine ⟨by simp [h.1], by simp [h.2.1], ?_⟩
  unfold subBody sumBody
  simp [h.1, h.2.1]

/-- The subtraction body acts as pointwise function subtraction on row
vectors, provided the subtrahend has no data beyond coordinate n. -/
theorem vecf_subBody {n : Nat} {q r : Mat} (hq : RVecE n q)
    (hr : ∀ k, n ≤ k → vecf r k = 0) :
    vecf (subBody q r) = vecf q - vecf r := by
  funext k
  obtain ⟨hq1, hqc, hqlen⟩ := hq
  have hvec : ∀ k, vecf (subBody q r) k =
      if k < q.rows * q.cols then
        ent q ((k / q.cols)) (k % q.cols) + ent (smul (-1) r) (k / q.cols) (k % q.cols)
      else 0 := fun k => getD_data_build _ _ _ k
  rcases Nat.lt_or_ge k n with h | h
  · have hk : k < q.rows * q.cols := by rw [hq1, hqc]; simpa using h
    have hdiv : k / q.cols = 0 := Nat.div_eq_of_lt (hqc ▸ h)
    have hmod : k % q.cols = k := Nat.mod_eq_of_lt (hqc ▸ h)
    rw [Pi.sub_apply, hvec k, if_pos hk, hdiv, hmod]
    have e1 : ent q 0 k = vecf q k := by simp [ent, vecf]
    have e2 : ent (smul (-1) r) 0 k = vecf r k * (-1) := by
      rw [ent]
      simp only [cols_smul, Nat.zero_mul, Nat.zero_add]
      exact vecf_smul _ _ _
    rw [e1, e2]; ring
  · rw [Pi.sub_apply, hvec k, vecf_eq_zero_of_le (le_of_eq hqlen) h, hr k h]
    have : ¬ k < q.rows * q.cols := by rw [hq1, hqc]; simpa using h
    rw [if_neg this]; ring

/-- dotBody over the data of the left vector agrees with the n-coordinate
inner product whenever the left data list has at most n entries. -/
theorem dotBody_eq {n : Nat} {v w : Mat} (h : v.data.length ≤ n) :
    dotBody v w = dotf n (vecf v) (vecf w) := by
  unfold dotBody dotf
  refine Finset.sum_subset (Finset.range_subset.2 h) ?_
  intro k _ hk
  simp only [Finset.mem_range, Nat.not_lt] at hk
  have : vecf v k = 0 := List.getD_eq_default _ _ hk
  show vecf v k * vecf w k = 0
  rw [this, zero_mul]

theorem norm_eq_sqrt_dotf {n : Nat} {v : Mat} (h1 : v.rows = 1) (hc : v.cols = n) :
    norm v = Real.sqrt (dotf n (vecf v) (vecf v)) := by
  unfold norm dotf
  rw [h1, Finset.sum_range_one]
  congr 1
  refine Finset.sum_congr (by rw [hc]) ?_
  intro j _
  have : ent v 0 j = vecf v j := by simp [ent, vecf]
  rw [this]

theorem dotf_comm (n : Nat) (u v : Nat → ℝ) : dotf n u v = dotf n v u := by
  unfold dotf
  exact Finset.sum_congr rfl fun k _ => mul_comm _ _

theorem dotf_sub_right (n : Nat) (u v w : Nat → ℝ) :
    dotf n u (v - w) = dotf n u v - dotf n u w := by
  unfold dotf
  rw [← Finset.sum_sub_distrib]
  exact Finset.sum_congr rfl fun k _ => by simp [mul_sub]

theorem dotf_smul_right (n : Nat) (c : ℝ) (u v : Nat → ℝ) :
    dotf n u (c • v) = c * dotf n u v := by
  unfold dotf
  rw [Finset.mul_sum]
  exact Finset.sum_congr rfl fun k _ => by simp [Pi.smul_apply, smul_eq_mul]; ring

theorem dotf_sum_right (n : Nat) (u : Nat → ℝ) {ι : Type} (s : Finset ι)
    (f : ι → Nat → ℝ) : dotf n u (∑ j ∈ s, f j) = ∑ j ∈ s, dotf n u (f j) := by
  unfold dotf
  rw [Finset.sum_comm]
  exact Finset.sum_congr rfl fun _ _ => by
    rw [Finset.sum_apply, Finset.mul_sum]

theorem dotf_zero_right (n : Nat) (u : Nat → ℝ) : dotf n u 0 = 0 := by
  simp [dotf]

theorem dotf_self_nonneg (n : Nat) (v : Nat → ℝ) : 0 ≤ dotf n v v :=
  Finset.sum_nonneg fun _ _ => mul_self_nonneg _

theorem dotf_self_pos {n : Nat} {v : Nat → ℝ} (hsupp : ∀ k, n ≤ k → v k = 0)
    (hv : v ≠ 0) : 0 < dotf n v v := by
  obtain ⟨k, hk⟩ : ∃ k, v k ≠ 0 := by
    by_contra h
    push_neg at h
    exact hv (funext h)
  have hkn : k < n := by
    by_contra h
    exact hk (hsupp k (Nat.le_of_not_lt h))
  refine Finset.sum_pos' (fun j _ => mul_self_nonneg _) ⟨k, Finset.mem_range.2 hkn, ?_⟩
  exact mul_self_pos.2 hk

theorem ent_smul (c : ℝ) (B : Mat) (i j : Nat) :
    ent (smul c B) i j = ent B i j * c := by
  show (smul c B).data.getD (i * (smul c B).cols + j) 0 = ent B i j * c
  rw [cols_smul]
  exact vecf_smul c B (i * B.cols + j)

/-! ### Claim C9: transpose round-trips -/

theorem tr_tr_eq {A : Mat} (hA : WF A) : tr (tr A) = A := by
  refine Mat_ext (WF_tr _) hA rfl rfl ?_
  intro i j hi hj
  have h1 : ent (tr (tr A)) i j = ent (tr A) j i :=
    ent_tr (A := tr A) (by simpa using hi) (by simpa using hj)
  have h2 : ent (tr A) j i = ent A i j :=
    ent_tr (A := A) (by simpa using hj) (by simpa using hi)
  rw [h1, h2]

/-- C9: for every well-formed matrix A of any shape, including 0-row and
0-column matrices, tr(tr(A)) structurally equals A. -/
theorem C9_transpose_involutive (A : Mat) (hA : WF A) : tr (tr A) = A :=
  tr_tr_eq hA

/-- C9 witness: a concrete 2 x 3 matrix round-trips through tr. -/
theorem C9_transpose_involutive_witness :
    WF ⟨2, 3, [1, 2, 3, 4, 5, 6]⟩ ∧
      tr (tr ⟨2, 3, [1, 2, 3, 4, 5, 6]⟩) = (⟨2, 3, [1, 2, 3, 4, 5, 6]⟩ : Mat) :=
  ⟨rfl, C9_transpose_involutive _ rfl⟩

/-! ### Claim C7: row and column range checking -/

/-- C7: row(i, A) succeeds exactly when 0 <= i < A.rows and column(j, A)
succeeds exactly when 0 <= j < A.cols; on any out-of-range index each fails
with the RangeError message that interpolates the valid bound and the
attempted index, for every shape of A (with rows = 0 or cols = 0 every index
fails, the bound rendering as -1). -/
theorem C7_row_column_range (A : Mat) (i j : Int) :
    ((∃ M, row i A = Except.ok M) ↔ 0 ≤ i ∧ i < (A.rows : Int)) ∧
    ((∃ M, column j A = Except.ok M) ↔ 0 ≤ j ∧ j < (A.cols : Int)) ∧
    (¬(0 ≤ i ∧ i < (A.rows : Int)) →
      row i A = Except.error (rowErrMsg A.rows i) ∧
      ∃ s1 s2 s3, rowErrMsg A.rows i =
        s1 ++ toString ((A.rows : Int) - 1) ++ s2 ++ toString i ++ s3) ∧
    (¬(0 ≤ j ∧ j < (A.cols : Int)) →
      column j A = Except.error (colErrMsg A.cols j) ∧
      ∃ s1 s2 s3, colErrMsg A.cols j =
        s1 ++ toString ((A.cols : Int) - 1) ++ s2 ++ toString j ++ s3) := by
  unfold row column
  refine ⟨?_, ?_, ?_, ?_⟩
  · by_cases h : i < 0 ∨ (A.rows : Int) ≤ i
    · rw [if_pos h]
      constructor
      · rintro ⟨M, hM⟩
        exact Except.noConfusion hM
      · intro h2
        exact absurd h2 (by omega)
    · rw [if_neg h]
      push_neg at h
      exact ⟨fun _ => ⟨h.1, h.2⟩, fun _ => ⟨_, rfl⟩⟩
  · by_cases h : j < 0 ∨ (A.cols : Int) ≤ j
    · rw [if_pos h]
      constructor
      · rintro ⟨M, hM⟩
        exact Except.noConfusion hM
      · intro h2
        exact absurd h2 (by omega)
    · rw [if_neg h]
      push_neg at h
      exact ⟨fun _ => ⟨h.1, h.2⟩, fun _ => ⟨_, rfl⟩⟩
  · intro h
    rw [if_pos (by omega)]
    exact ⟨rfl, "Paramenter \x22i\x22 must fall between 0 and ", " (its value is ", ")", rfl⟩
  · intro h
    rw [if_pos (by omega)]
    exact ⟨rfl, "Paramenter \x22i\x22 must fall between 0 and ", " (its value is ", ")", rfl⟩

/-- C7 witness: on the 0 x 0 matrix the index 0 is out of range for both row
and column, and both fail with the documented message. -/
theorem C7_row_column_range_witness :
    (¬(0 ≤ (0 : Int) ∧ (0 : Int) < ((0 : Nat) : Int))) ∧
      (row 0 ⟨0, 0, []⟩ = Except.error (rowErrMsg 0 0) ∧
        ∃ s1 s2 s3, rowErrMsg 0 0 =
          s1 ++ toString (((0 : Nat) : Int) - 1) ++ s2 ++ toString (0 : Int) ++ s3) :=
  ⟨by decide, (C7_row_column_range ⟨0, 0, []⟩ 0 0).2.2.1 (by decide)⟩

/-! ### Claim C6: sub is elementwise subtraction and fails with sum's guard -/

/-- C6: sub(A, B) = sum(A, smul(-1, B)) computes, for equal-shaped well-formed
A and B, the matrix of elementwise differences A(i,j) - B(i,j) with A's shape,
and on any shape mismatch it fails exactly when sum(A, B) fails. -/
theorem C6_sub_matches_sum (A B : Mat) (hA : WF A) (hB : WF B) :
    (A.rows = B.rows ∧ A.cols = B.cols →
      sub A B = Except.ok (subBody A B) ∧
      (subBody A B).rows = A.rows ∧ (subBody A B).cols = A.cols ∧
      ∀ i j, i < A.rows → j < A.cols →
        ent (subBody A B) i j = ent A i j - ent B i j) ∧
    (¬(A.rows = B.rows ∧ A.cols = B.cols) →
      (∃ e, sub A B = Except.error e) ∧ ∃ e, sum A B = Except.error e) := by
  constructor
  · rintro ⟨hr, hc⟩
    have hlen : A.data.length = (smul (-1) B).data.length := by
      rw [length_data_smul, hA, hB, hr, hc]
    have hguard : ¬(A.rows ≠ (smul (-1) B).rows ∨ A.cols ≠ (smul (-1) B).cols ∨
        A.data.length ≠ (smul (-1) B).data.length) := by
      push_neg
      exact ⟨by simpa using hr, by simpa using hc, hlen⟩
    refine ⟨by rw [sub, sum, if_neg hguard]; rfl, rfl, rfl, ?_⟩
    intro i j hi hj
    rw [subBody, ent_sumBody hi hj, ent_smul]
    ring
  · intro h
    have hguard : A.rows ≠ (smul (-1) B).rows ∨ A.cols ≠ (smul (-1) B).cols ∨
        A.data.length ≠ (smul (-1) B).data.length := by
      rw [rows_smul, cols_smul]
      by_cases hr : A.rows = B.rows
      · exact Or.inr (Or.inl fun hc => h ⟨hr, hc⟩)
      · exact Or.inl hr
    have hguard2 : A.rows ≠ B.rows ∨ A.cols ≠ B.cols ∨
        A.data.length ≠ B.data.length := by
      by_cases hr : A.rows = B.rows
      · exact Or.inr (Or.inl fun hc => h ⟨hr, hc⟩)
      · exact Or.inl hr
    exact ⟨⟨_, by rw [sub, sum, if_pos hguard]⟩, ⟨_, by rw [sum, if_pos hguard2]⟩⟩

/-! ### Back substitution -/

theorem ent_col0 {M : Mat} (h : M.cols = 1) (k : Nat) :
    M.data.getD k 0 = ent M k 0 := by
  simp [ent, h]

theorem ent_backSubstitution (R b : Mat) {k : Nat} (hk : k < R.rows) :
    ent (backSubstitution R b) k 0 = bsVals R b R.rows k := by
  show ((List.range R.rows).map (bsVals R b R.rows)).getD (k * 1 + 0) 0 = _
  have hk' : k * 1 + 0 = k := by ring
  rw [hk', List.getD_eq_getElem _ _ (by simpa using hk)]
  simp

/-- Once set, an x slot keeps its value through later iterations. -/
theorem bsVals_stable (R b : Mat) (eq k : Nat) (h : k ≠ R.rows - 1 - eq) :
    bsVals R b (eq + 1) k = bsVals R b eq k := by
  rw [bsVals, if_neg h]

/-- The value written at iteration eq. -/
theorem bsVals_write (R b : Mat) (eq : Nat) :
    bsVals R b (eq + 1) (R.rows - 1 - eq) =
      (b.data.getD (R.rows - 1 - eq) 0 -
        ∑ j ∈ Finset.Ico (R.rows - 1 - eq + 1) R.cols,
          ent R (R.rows - 1 - eq) j * bsVals R b eq j) / ent R (R.rows - 1 - eq) (R.rows - 1 - eq) := by
  rw [bsVals, if_pos rfl]

/-- Back substitution on b = R*x recovers x: after eq iterations every already
set slot k holds the k-th entry of x, for square upper-triangular R with
nonzero diagonal. -/
theorem bsVals_mulBody (R x : Mat) (hs : R.cols = R.rows)
    (hUT : ∀ i j, i < R.rows → j < i → ent R i j = 0)
    (hdiag : ∀ i, i < R.rows → ent R i i ≠ 0)
    (hxc : x.cols = 1) :
    ∀ eq, eq ≤ R.rows → ∀ k, R.rows - eq ≤ k → k < R.rows →
      bsVals R (mulBody R x) eq k = ent x k 0 := by
  intro eq
  induction eq with
  | zero => intro _ k hk1 hk2; omega
  | succ eq ih =>
    intro heq k hk1 hk2
    have heq' : eq ≤ R.rows := by omega
    by_cases hki : k = R.rows - 1 - eq
    · subst hki
      have hiR : R.rows - 1 - eq < R.rows := hk2
      have hne : ent R (R.rows - 1 - eq) (R.rows - 1 - eq) ≠ 0 := hdiag _ hiR
      have hb : (mulBody R x).data.getD (R.rows - 1 - eq) 0 =
          ent (mulBody R x) (R.rows - 1 - eq) 0 := ent_col0 (by simp [hxc]) _
      have hbent : ent (mulBody R x) (R.rows - 1 - eq) 0 =
          ∑ j ∈ Finset.range R.cols, ent R (R.rows - 1 - eq) j * ent x j 0 :=
        ent_mulBody hiR (by omega)
      have hsplit : ∑ j ∈ Finset.range R.cols, ent R (R.rows - 1 - eq) j * ent x j 0 =
          ent R (R.rows - 1 - eq) (R.rows - 1 - eq) * ent x (R.rows - 1 - eq) 0 +
            ∑ j ∈ Finset.Ico (R.rows - 1 - eq + 1) R.cols,
              ent R (R.rows - 1 - eq) j * ent x j 0 := by
        rw [Finset.range_eq_Ico,
          ← Finset.sum_Ico_consecutive _ (Nat.zero_le (R.rows - 1 - eq + 1)) (by omega),
          ← Finset.range_eq_Ico, Finset.sum_range_succ]
        have hz : ∑ j ∈ Finset.range (R.rows - 1 - eq),
            ent R (R.rows - 1 - eq) j * ent x j 0 = 0 :=
          Finset.sum_eq_zero fun j hj => by
            rw [hUT _ j hiR (Finset.mem_range.1 hj), zero_mul]
        rw [hz, zero_add]
      have hrest : ∀ j ∈ Finset.Ico (R.rows - 1 - eq + 1) R.cols,
          bsVals R (mulBody R x) eq j = ent x j 0 := by
        intro j hj
        obtain ⟨hj1, hj2⟩ := Finset.mem_Ico.1 hj
        exact ih heq' j (by omega) (by omega)
      have hsum : ∑ j ∈ Finset.Ico (R.rows - 1 - eq + 1) R.cols,
          ent R (R.rows - 1 - eq) j * bsVals R (mulBody R x) eq j =
            ∑ j ∈ Finset.Ico (R.rows - 1 - eq + 1) R.cols,
              ent R (R.rows - 1 - eq) j * ent x j 0 :=
        Finset.sum_congr rfl fun j hj => by rw [hrest j hj]
      rw [bsVals_write, hb, hbent, hsplit, hsum, add_sub_cancel_right, mul_comm,
        mul_div_assoc, div_self hne, mul_one]
    · rw [bsVals_stable R _ eq k hki]
      exact ih heq' k (by omega) hk2

/-- Back substitution yields an exact solution of R x = c for square
upper-triangular R with nonzero diagonal: each equation of R applied to the
final x values gives back c. -/
theorem bsVals_solution (R c : Mat) (hs : R.cols = R.rows)
    (hUT : ∀ i j, i < R.rows → j < i → ent R i j = 0)
    (hdiag : ∀ i, i < R.rows → ent R i i ≠ 0) :
    ∀ eq, eq ≤ R.rows → ∀ k, R.rows - eq ≤ k → k < R.rows →
      ∑ j ∈ Finset.range R.cols, ent R k j * bsVals R c eq j = c.data.getD k 0 := by
  intro eq
  induction eq with
  | zero => intro _ k hk1 hk2; omega
  | succ eq ih =>
    intro heq k hk1 hk2
    have heq' : eq ≤ R.rows := by omega
    by_cases hki : k = R.rows - 1 - eq
    · subst hki
      have hiR : R.rows - 1 - eq < R.rows := hk2
      have hne : ent R (R.rows - 1 - eq) (R.rows - 1 - eq) ≠ 0 := hdiag _ hiR
      have hsplit : ∑ j ∈ Finset.range R.cols,
          ent R (R.rows - 1 - eq) j * bsVals R c (eq + 1) j =
          ent R (R.rows - 1 - eq) (R.rows - 1 - eq) * bsVals R c (eq + 1) (R.rows - 1 - eq) +
            ∑ j ∈ Finset.Ico (R.rows - 1 - eq + 1) R.cols,
              ent R (R.rows - 1 - eq) j * bsVals R c (eq + 1) j := by
        rw [Finset.range_eq_Ico,
          ← Finset.sum_Ico_consecutive _ (Nat.zero_le (R.rows - 1 - eq + 1)) (by omega),
          ← Finset.range_eq_Ico, Finset.sum_range_succ]
        have hz : ∑ j ∈ Finset.range (R.rows - 1 - eq),
            ent R (R.rows - 1 - eq) j * bsVals R c (eq + 1) j = 0 :=
          Finset.sum_eq_zero fun j hj => by
            rw [hUT _ j hiR (Finset.mem_range.1 hj), zero_mul]
        rw [hz, zero_add]
      have hrest : ∀ j ∈ Finset.Ico (R.rows - 1 - eq + 1) R.cols,
          bsVals R c (eq + 1) j = bsVals R c eq j := fun j hj =>
        bsVals_stable R c eq j (by
          obtain ⟨hj1, _⟩ := Finset.mem_Ico.1 hj
          omega)
      have hsum : ∑ j ∈ Finset.Ico (R.rows - 1 - eq + 1) R.cols,
          ent R (R.rows - 1 - eq) j * bsVals R c (eq + 1) j =
            ∑ j ∈ Finset.Ico (R.rows - 1 - eq + 1) R.cols,
              ent R (R.rows - 1 - eq) j * bsVals R c eq j :=
        Finset.sum_congr rfl fun j hj => by rw [hrest j hj]
      rw [hsplit, hsum, bsVals_write]
      field_simp
    · have hkeq : R.rows - eq ≤ k := by omega
      have hstep : ∑ j ∈ Finset.range R.cols, ent R k j * bsVals R c (eq + 1) j =
          ∑ j ∈ Finset.range R.cols, ent R k j * bsVals R c eq j := by
        refine Finset.sum_congr rfl fun j hj => ?_
        by_cases hji : j = R.rows - 1 - eq
        · subst hji
          rw [hUT k _ hk2 (by omega), zero_mul, zero_mul]
        · rw [bsVals_stable R c eq j hji]
      rw [hstep]
      exact ih heq' k hkeq hk2

/-- Matrix form of bsVals_solution: R * backSubstitution(R, c) = c. -/
theorem mulBody_backSubstitution (R c : Mat) (hs : R.cols = R.rows)
    (hUT : ∀ i j, i < R.rows → j < i → ent R i j = 0)
    (hdiag : ∀ i, i < R.rows → ent R i i ≠ 0)
    (hcr : c.rows = R.rows) (hcc : c.cols = 1) (hc : WF c) :
    mulBody R (backSubstitution R c) = c := by
  refine Mat_ext (WF_mulBody _ _) hc (by simp [hcr]) (by simp [hcc]) ?_
  intro k j hk hj
  simp only [rows_mulBody] at hk
  simp only [cols_mulBody, cols_backSubstitution] at hj
  have hj0 : j = 0 := by omega
  subst hj0
  rw [ent_mulBody hk (by simp)]
  have : ∀ jj ∈ Finset.range R.cols, ent R k jj * ent (backSubstitution R c) jj 0 =
      ent R k jj * bsVals R c R.rows jj := by
    intro jj hjj
    rw [ent_backSubstitution R c (by rw [← hs]; exact Finset.mem_range.1 hjj)]
  rw [Finset.sum_congr rfl this,
    bsVals_solution R c hs hUT hdiag R.rows (le_refl _) k (by omega) hk,
    ent_col0 hcc]

/-! ### Claim C3: back substitution round-trips against multiplication -/

/-- C3: for every upper-triangular square R with nonzero diagonal and every
well-formed column vector x with x.rows = R.cols, multiply(R, x) succeeds and
backSubstitution(R, multiply(R, x)) structurally equals x (exactly, over the
exact-real embedding). -/
theorem C3_backSubstitution_round_trip (R x : Mat) (hs : R.cols = R.rows)
    (hUT : ∀ i j, i < R.rows → j < i → ent R i j = 0)
    (hdiag : ∀ i, i < R.rows → ent R i i ≠ 0)
    (hxr : x.rows = R.cols) (hxc : x.cols = 1) (hx : WF x) :
    mul R x = Except.ok (mulBody R x) ∧
      backSubstitution R (mulBody R x) = x := by
  refine ⟨by rw [mul, if_neg (by omega)], ?_⟩
  refine Mat_ext (WF_backSubstitution _ _) hx (by simp [hxr, hs]) (by simp [hxc]) ?_
  intro k j hk hj
  simp only [rows_backSubstitution] at hk
  simp only [cols_backSubstitution] at hj
  have hj0 : j = 0 := by omega
  subst hj0
  rw [ent_backSubstitution R _ hk]
  exact bsVals_mulBody R x hs hUT hdiag hxc R.rows (le_refl _) k (by omega) hk

/-- C3 witness: the concrete system R = [[1,2],[0,3]], x = [5,7]. -/
theorem C3_backSubstitution_round_trip_witness :
    ((⟨2, 2, [1, 2, 0, 3]⟩ : Mat).cols = (⟨2, 2, [1, 2, 0, 3]⟩ : Mat).rows) ∧
      (∀ i j, i < (2 : Nat) → j < i → ent ⟨2, 2, [1, 2, 0, 3]⟩ i j = 0) ∧
      (∀ i, i < (2 : Nat) → ent ⟨2, 2, [1, 2, 0, 3]⟩ i i ≠ 0) ∧
      WF (⟨2, 1, [5, 7]⟩ : Mat) ∧
      backSubstitution ⟨2, 2, [1, 2, 0, 3]⟩
          (mulBody ⟨2, 2, [1, 2, 0, 3]⟩ ⟨2, 1, [5, 7]⟩) = (⟨2, 1, [5, 7]⟩ : Mat) := by
  have hUT : ∀ i j, i < (2 : Nat) → j < i → ent ⟨2, 2, [1, 2, 0, 3]⟩ i j = 0 := by
    intro i j hi hj
    have h1 : i = 1 := by omega
    have h0 : j = 0 := by omega
    subst h1; subst h0
    rfl
  have hdiag : ∀ i, i < (2 : Nat) → ent ⟨2, 2, [1, 2, 0, 3]⟩ i i ≠ 0 := by
    intro i hi
    have : i = 0 ∨ i = 1 := by omega
    rcases this with h | h <;> subst h <;> norm_num [ent]
  exact ⟨rfl, hUT, hdiag, rfl,
    (C3_backSubstitution_round_trip ⟨2, 2, [1, 2, 0, 3]⟩ ⟨2, 1, [5, 7]⟩ rfl hUT hdiag
      rfl rfl rfl).2⟩

/-! ### Well-formedness preservation (claim C5) -/

theorem gsInner_RVecE {n : Nat} (ai Q : Mat) :
    ∀ fuel j q q', RVecE n q → gsInner ai Q fuel j q = some q' → RVecE n q' := by
  intro fuel
  induction fuel with
  | zero =>
    intro j q q' hq h
    simp only [gsInner, Option.some.injEq] at h
    rwa [← h]
  | succ fuel ih =>
    intro j q q' hq h
    simp only [gsInner] at h
    by_cases hc : norm (subBody q (smul (dotBody (rowBody j Q) ai) (rowBody j Q))) ≤ tol
    · rw [if_pos hc] at h
      exact Option.noConfusion h
    · rw [if_neg hc] at h
      exact ih (j + 1) _ q' (RVecE_subBody _ hq) h

/-- Shape invariant of the accumulator through the outer Gram-Schmidt loop. -/
theorem gsOuter_wf (A : Mat) (hA : WF A) :
    ∀ fuel i Q, i + fuel = A.rows → WF Q → (Q.rows = 0 → Q.cols = 0) →
      (0 < Q.rows → Q.cols = A.cols) →
      WF (gsOuter A fuel i Q) ∧
        ((gsOuter A fuel i Q).rows = 0 → (gsOuter A fuel i Q).cols = 0) ∧
        (0 < (gsOuter A fuel i Q).rows → (gsOuter A fuel i Q).cols = A.cols) := by
  intro fuel
  induction fuel with
  | zero =>
    intro i Q _ h1 h2 h3
    simpa [gsOuter] using ⟨h1, h2, h3⟩
  | succ fuel ih =>
    intro i Q hfi h1 h2 h3
    have hi : i < A.rows := by omega
    have hai : RVecE A.cols (rowBody i A) := RVecE_rowBody hA hi
    simp only [gsOuter]
    cases hg : gsInner (rowBody i A) Q Q.rows 0 (clone (rowBody i A)) with
    | none => exact ⟨h1, h2, h3⟩
    | some q =>
      have hq : RVecE A.cols q := gsInner_RVecE _ _ _ _ _ _ (by simpa using hai) hg
      have hqn : RVecE A.cols (smul (1 / norm q) q) := RVecE_smul _ hq
      set qn := smul (1 / norm q) q with hqndef
      have h1' : WF (appendRow Q qn) := by
        unfold WF appendRow
        simp only [List.length_append]
        by_cases hc : Q.cols = 0
        · rcases Nat.eq_zero_or_pos Q.rows with hr | hr
          · rw [if_pos hc]
            rw [WF, hr, hc, Nat.mul_zero] at h1
            simp [h1, hr, hqn.2.2]
          · have hac : A.cols = 0 := by rw [← h3 hr, hc]
            rw [if_pos hc]
            rw [WF, hc, Nat.mul_zero] at h1
            have : qn.data.length = 0 := by rw [hqn.2.2, hac]
            simp [h1, this]
        · rw [if_neg hc]
          have hr : 0 < Q.rows := by
            rcases Nat.eq_zero_or_pos Q.rows with hr | hr
            · exact absurd (h2 hr) hc
            · exact hr
          rw [h1, hqn.2.2, h3 hr]
          ring
      have h2' : (appendRow Q qn).rows = 0 → (appendRow Q qn).cols = 0 := by
        intro h
        simp at h
      have h3' : 0 < (appendRow Q qn).rows → (appendRow Q qn).cols = A.cols := by
        intro _
        show (if Q.cols = 0 then qn.data.length else Q.cols) = A.cols
        by_cases hc : Q.cols = 0
        · rcases Nat.eq_zero_or_pos Q.rows with hr | hr
          · rw [if_pos hc, hqn.2.2]
          · rw [if_pos hc, hqn.2.2, ← h3 hr, hc]
        · have hr : 0 < Q.rows := by
            rcases Nat.eq_zero_or_pos Q.rows with hr | hr
            · exact absurd (h2 hr) hc
            · exact hr
          rw [if_neg hc, h3 hr]
      exact ih (i + 1) (appendRow Q qn) (by omega) h1' h2' h3'

theorem WF_gramSchmidt {A : Mat} (hA : WF A) : WF (gramSchmidt A) :=
  (gsOuter_wf A hA A.rows 0 makeEmptyMatrix (by omega) rfl (fun _ => rfl)
    (fun h => absurd h (by simp [makeEmptyMatrix]))).1

theorem WF_columnBody (j : Nat) (A : Mat) : WF (columnBody j A) := by
  simp [WF, columnBody]

theorem sum_ok {A B M : Mat} (h : sum A B = Except.ok M) : M = sumBody A B := by
  rw [sum] at h
  by_cases hg : A.rows ≠ B.rows ∨ A.cols ≠ B.cols ∨ A.data.length ≠ B.data.length
  · rw [if_pos hg] at h
    exact Except.noConfusion h
  · rw [if_neg hg] at h
    exact (Except.ok.injEq _ _ ▸ h).symm

theorem mul_ok {A B M : Mat} (h : mul A B = Except.ok M) : M = mulBody A B := by
  rw [mul] at h
  by_cases hg : A.cols ≠ B.rows
  · rw [if_pos hg] at h
    exact Except.noConfusion h
  · rw [if_neg hg] at h
    exact (Except.ok.injEq _ _ ▸ h).symm

theorem qr_ok {A Q R : Mat} (h : qr A = Except.ok (Q, R)) :
    Q = tr (gramSchmidt (tr A)) ∧ R = mulBody (tr Q) A := by
  rw [qr] at h
  cases hm : mul (tr (tr (gramSchmidt (tr A)))) A with
  | error e =>
    rw [hm] at h
    exact Except.noConfusion h
  | ok R' =>
    rw [hm] at h
    simp only [Except.map, Except.ok.injEq, Prod.mk.injEq] at h
    obtain ⟨hQ, hR⟩ := h
    refine ⟨hQ.symm, ?_⟩
    rw [← hR, mul_ok hm, ← hQ]

/-- C5 (amended): every core operation yields a matrix satisfying
data.length = rows*cols, on well-formed inputs and successful guards;
makeMatrix fails rather than building an invalid matrix.  appendRow preserves
the invariant exactly when the appended row's data length matches A.cols (for
A.cols nonzero), or A is the empty accumulator or the row is empty (for
A.cols zero); it is not validated by the source, so other inputs can break
the invariant (see the counterexample). -/
theorem C5_wf_invariant :
    (∀ (r c : Nat) (d : List ℝ), (∀ M, makeMatrix r c d = Except.ok M → WF M) ∧
      ((∃ e, makeMatrix r c d = Except.error e) ↔ d.length ≠ r * c)) ∧
    (∀ r c : Nat, WF (buildEmptyData r c)) ∧
    (∀ A : Mat, WF A → WF (clone A)) ∧
    (∀ (i : Int) (A : Mat), WF A → ∀ M, row i A = Except.ok M → WF M) ∧
    (∀ (j : Int) (A : Mat) (M : Mat), column j A = Except.ok M → WF M) ∧
    (∀ A r : Mat, WF A → (A.cols ≠ 0 → r.data.length = A.cols) →
      (A.cols = 0 → A.rows = 0 ∨ r.data.length = 0) → WF (appendRow A r)) ∧
    (∀ A B M : Mat, sum A B = Except.ok M → WF M) ∧
    (∀ A B M : Mat, sub A B = Except.ok M → WF M) ∧
    (∀ (c : ℝ) (A : Mat), WF A → WF (smul c A)) ∧
    (∀ A B M : Mat, mul A B = Except.ok M → WF M) ∧
    (∀ A : Mat, WF (tr A)) ∧
    (∀ A : Mat, WF A → WF (gramSchmidt A)) ∧
    (∀ A Q R : Mat, qr A = Except.ok (Q, R) → WF Q ∧ WF R) ∧
    (∀ R b : Mat, WF (backSubstitution R b)) := by
  refine ⟨?_, fun r c => by simp [WF, buildEmptyData], fun A hA => hA, ?_, ?_, ?_,
    ?_, ?_, fun c A hA => WF_smul c hA, ?_, fun A => WF_tr A,
    fun A hA => WF_gramSchmidt hA, ?_, fun R b => WF_backSubstitution R b⟩
  · intro r c d
    constructor
    · intro M h
      rw [makeMatrix] at h
      by_cases hg : d.length ≠ r * c
      · rw [if_pos hg] at h
        exact Except.noConfusion h
      · rw [if_neg hg] at h
        injection h with h2
        rw [← h2]
        unfold WF
        simpa using hg
    · constructor
      · rintro ⟨e, he⟩
        rw [makeMatrix] at he
        by_cases hg : d.length ≠ r * c
        · exact hg
        · rw [if_neg hg] at he
          exact Except.noConfusion he
      · intro hg
        exact ⟨_, by rw [makeMatrix, if_pos hg]⟩
  · intro i A hA M h
    rw [row] at h
    by_cases hg : i < 0 ∨ (A.rows : Int) ≤ i
    · rw [if_pos hg] at h
      exact Except.noConfusion h
    · rw [if_neg hg] at h
      injection h with h2
      rw [← h2]
      have hi : i.toNat < A.rows := by omega
      obtain ⟨e1, e2, e3⟩ := RVecE_rowBody hA hi
      unfold WF
      rw [e1, e2, e3, Nat.one_mul]
  · intro j A M h
    rw [column] at h
    by_cases hg : j < 0 ∨ (A.cols : Int) ≤ j
    · rw [if_pos hg] at h
      exact Except.noConfusion h
    · rw [if_neg hg] at h
      injection h with h2
      rw [← h2]
      exact WF_columnBody _ _
  · intro A r hA hc1 hc2
    unfold WF appendRow
    simp only [List.length_append]
    by_cases hc : A.cols = 0
    · rcases hc2 hc with hr | hr
      · rw [if_pos hc]
        rw [WF, hc, Nat.mul_zero] at hA
        simp [hA, hr]
      · rw [if_pos hc]
        rw [WF, hc, Nat.mul_zero] at hA
        simp [hA, hr]
    · rw [if_neg hc, hA, hc1 hc]
      ring
  · intro A B M h
    rw [sum_ok h]
    exact WF_sumBody A B
  · intro A B M h
    rw [sum_ok h]
    exact WF_sumBody A _
  · intro A B M h
    rw [mul_ok h]
    exact WF_mulBody A B
  · intro A Q R h
    obtain ⟨hQ, hR⟩ := qr_ok h
    exact ⟨hQ ▸ WF_tr _, hR ▸ WF_mulBody _ _⟩

/-- C5 counterexample: appendRow does not preserve the invariant for every A
and r.  The well-formed 1 x 1 matrix [[1]] with an appended 2-entry row gives
a 2 x 1 matrix carrying 3 data entries. -/
theorem C5_wf_invariant_appendRow_counterexample :
    WF (⟨1, 1, [1]⟩ : Mat) ∧ WF (⟨1, 2, [1, 2]⟩ : Mat) ∧
      ¬ WF (appendRow ⟨1, 1, [1]⟩ ⟨1, 2, [1, 2]⟩) := by
  refine ⟨rfl, rfl, ?_⟩
  intro h
  rw [WF, appendRow] at h
  simp at h

/-- C5 witness: the amended appendRow clause and the gramSchmidt clause at
concrete well-formed inputs, via the theorem. -/
theorem C5_wf_invariant_witness :
    WF (⟨1, 1, [1]⟩ : Mat) ∧ WF (⟨1, 1, [2]⟩ : Mat) ∧
      WF (appendRow ⟨1, 1, [1]⟩ ⟨1, 1, [2]⟩) ∧ WF (gramSchmidt ⟨1, 1, [1]⟩) :=
  ⟨rfl, rfl,
    C5_wf_invariant.2.2.2.2.2.1 ⟨1, 1, [1]⟩ ⟨1, 1, [2]⟩ rfl (fun _ => rfl)
      (fun h => absurd h (by simp)),
    C5_wf_invariant.2.2.2.2.2.2.2.2.2.2.2.1 ⟨1, 1, [1]⟩ rfl⟩

/-! ### Claim C8: toArray / fromArray round trips -/

theorem list_map_getD_range {c : Nat} (l : List ℝ) (h : l.length = c) :
    (List.range c).map (fun k => l.getD k 0) = l := by
  subst h
  apply List.ext_getElem (by simp)
  intro p h1 h2
  simp only [List.getElem_map, List.getElem_range]
  rw [List.getD_eq_getElem _ _ h2]

/-- Indexing into the concatenation of rows all of length c. -/
theorem flatten_uniform_getD (c : Nat) (x : List (List ℝ))
    (hx : ∀ r ∈ x, r.length = c) (i j : Nat) (hj : j < c) :
    x.flatten.getD (i * c + j) 0 = (x.getD i []).getD j 0 := by
  induction x generalizing i with
  | nil => simp [List.getD]
  | cons r rest ih =>
    have hr : r.length = c := hx r (by simp)
    cases i with
    | zero =>
      simp only [Nat.zero_mul, Nat.zero_add, List.flatten_cons]
      rw [List.getD_append _ _ _ _ (by omega)]
      rfl
    | succ i =>
      have hidx : (i + 1) * c + j = r.length + (i * c + j) := by rw [hr]; ring
      simp only [List.flatten_cons]
      rw [hidx, List.getD_append_right _ _ _ _ (by omega), Nat.add_sub_cancel_left]
      exact ih (fun s hs => hx s (by simp [hs])) i

/-- Concatenating the rows of a rectangular nested range-map gives the
row-major data list. -/
theorem flatten_range_map (r c : Nat) (g : Nat → Nat → ℝ) :
    ((List.range r).map fun i => (List.range c).map fun j => g i j).flatten =
      (List.range (r * c)).map fun p => g (p / c) (p % c) := by
  induction r with
  | zero => simp
  | succ r ih =>
    rw [List.range_succ, List.map_append, List.flatten_append,
      show (r + 1) * c = r * c + c by ring, List.range_add, List.map_append, ← ih]
    simp only [List.map_map, List.flatten_cons, List.flatten_nil, List.append_nil,
      List.map_cons, List.map_nil]
    congr 1
    apply List.map_congr_left
    intro q hq
    have hqc : q < c := List.mem_range.1 hq
    have hc : 0 < c := by omega
    simp only [Function.comp_apply]
    congr 1
    · rw [Nat.add_comm, Nat.add_mul_div_right _ _ hc, Nat.div_eq_of_lt hqc, Nat.zero_add]
    · rw [Nat.add_comm, Nat.add_mul_mod_self_right, Nat.mod_eq_of_lt hqc]

/-- A well-formed matrix is the row-major build of its own entries. -/
theorem build_ent_self {A : Mat} (hA : WF A) : build A.rows A.cols (ent A) = A :=
  Mat_ext (WF_build _ _ _) hA rfl rfl fun _ _ hi hj => ent_build _ hi hj

theorem faRows_ok (c : Nat) :
    ∀ (x : List (List ℝ)) (i : Nat), (∀ r ∈ x, r.length = c) →
      faRows c x i = Except.ok x.flatten := by
  intro x
  induction x with
  | nil => intro i _; rfl
  | cons r rest ih =>
    intro i hx
    rw [faRows, if_neg (by simp [hx r (by simp)]), ih (i + 1) fun s hs => hx s (by simp [hs])]
    rfl

theorem faRows_err (c : Nat) :
    ∀ (x : List (List ℝ)) (i : Nat), (∃ r ∈ x, r.length ≠ c) →
      ∃ e, faRows c x i = Except.error e := by
  intro x
  induction x with
  | nil =>
    rintro i ⟨r, hr, _⟩
    exact absurd hr (List.not_mem_nil r)
  | cons r rest ih =>
    rintro i ⟨s, hs, hlen⟩
    by_cases hr : r.length = c
    · rw [faRows, if_neg (by simpa using hr)]
      have hsrest : s ∈ rest := by
        rcases List.mem_cons.1 hs with h | h
        · exact absurd (h ▸ hr) hlen
        · exact h
      obtain ⟨e, he⟩ := ih (i + 1) ⟨s, hsrest, hlen⟩
      exact ⟨e, by rw [he]; rfl⟩
    · exact ⟨_, by rw [faRows, if_pos (by simpa using hr)]⟩

/-- C8 (amended): for every nonempty nested list whose rows all have the first
row's length, fromArray succeeds and toArray inverts it; for every well-formed
matrix with at least one row, fromArray inverts toArray; and for a nonempty
nested list with some row of a different length than the first, fromArray
fails with the row-length-mismatch error.  (On the empty nested list — and so
on toArray of a 0-row matrix — fromArray instead throws reading .length of
undefined; see the counterexample.) -/
theorem C8_array_conversion :
    (∀ (x0 : List ℝ) (rest : List (List ℝ)),
      (∀ r ∈ x0 :: rest, r.length = x0.length) →
      fromArray (x0 :: rest) =
        Except.ok ⟨(x0 :: rest).length, x0.length, (x0 :: rest).flatten⟩ ∧
      toArray ⟨(x0 :: rest).length, x0.length, (x0 :: rest).flatten⟩ = x0 :: rest) ∧
    (∀ A : Mat, WF A → 0 < A.rows → fromArray (toArray A) = Except.ok A) ∧
    (∀ (x0 : List ℝ) (rest : List (List ℝ)),
      (∃ r ∈ x0 :: rest, r.length ≠ x0.length) →
      ∃ e, fromArray (x0 :: rest) = Except.error e) := by
  have part1 : ∀ (x0 : List ℝ) (rest : List (List ℝ)),
      (∀ r ∈ x0 :: rest, r.length = x0.length) →
      fromArray (x0 :: rest) =
        Except.ok ⟨(x0 :: rest).length, x0.length, (x0 :: rest).flatten⟩ ∧
      toArray ⟨(x0 :: rest).length, x0.length, (x0 :: rest).flatten⟩ = x0 :: rest := by
    intro x0 rest hx
    constructor
    · rw [fromArray, faRows_ok x0.length (x0 :: rest) 0 hx]
      rfl
    · set x := x0 :: rest with hxdef
      set c := x0.length with hcdef
      apply List.ext_getElem (by simp [toArray])
      intro p h1 h2
      have hp : p < x.length := by simpa [toArray] using h1
      have hrowlen : x[p].length = c := hx _ (List.getElem_mem hp)
      show ((List.range x.length).map fun i =>
          (List.range c).map fun j => ent ⟨x.length, c, x.flatten⟩ i j)[p] = x[p]
      rw [List.getElem_map, List.getElem_range]
      have hent : ∀ j, j < c →
          ent ⟨x.length, c, x.flatten⟩ p j = x[p].getD j 0 := by
        intro j hj
        show x.flatten.getD (p * c + j) 0 = x[p].getD j 0
        rw [flatten_uniform_getD c x hx p j hj, List.getD_eq_getElem x [] hp]
      calc (List.range c).map (fun j => ent ⟨x.length, c, x.flatten⟩ p j)
          = (List.range c).map (fun j => x[p].getD j 0) := by
            apply List.map_congr_left
            intro j hj
            exact hent j (List.mem_range.1 hj)
        _ = x[p] := list_map_getD_range _ hrowlen
  refine ⟨part1, ?_, ?_⟩
  · intro A hA hrows
    cases hta : toArray A with
    | nil =>
      exfalso
      have : (toArray A).length = A.rows := by simp [toArray]
      rw [hta] at this
      simp at this
      omega
    | cons x0 rest =>
      have hxmem : ∀ r ∈ toArray A, r.length = A.cols := by
        intro r hr
        obtain ⟨i, _, hri⟩ := List.mem_map.1 hr
        simp [← hri]
      have hx0 : x0.length = A.cols := hxmem x0 (by rw [hta]; simp)
      have hall : ∀ r ∈ x0 :: rest, r.length = x0.length := by
        intro r hr
        rw [hxmem r (hta ▸ hr), hx0]
      rw [(part1 x0 rest hall).1]
      congr 1
      have hlen : (toArray A).length = A.rows := by simp [toArray]
      have hflat : (toArray A).flatten = A.data := by
        rw [toArray, flatten_range_map]
        have := congrArg Mat.data (build_ent_self hA)
        simpa [build] using this
      rw [hta] at hlen hflat
      rw [hlen, hx0, hflat]
  · intro x0 rest hx
    obtain ⟨e, he⟩ := faRows_err x0.length (x0 :: rest) 0 hx
    exact ⟨e, by rw [fromArray, he]; rfl⟩

/-- C8 counterexample: the claim as stated fails on empty input.  The 0 x 0
matrix is well-formed and toArray of it is the empty nested list (a list of
rows that vacuously all have the first row's length), yet fromArray of it is
a TypeError, not the matrix (and not a RowLengthMismatchError either). -/
theorem C8_array_conversion_empty_counterexample :
    WF (⟨0, 0, []⟩ : Mat) ∧ toArray (⟨0, 0, []⟩ : Mat) = ([] : List (List ℝ)) ∧
      (∀ M : Mat, fromArray (toArray (⟨0, 0, []⟩ : Mat)) ≠ Except.ok M) ∧
      fromArray (toArray (⟨0, 0, []⟩ : Mat)) =
        Except.error "TypeError: Cannot read properties of undefined (reading 'length')" :=
  ⟨rfl, rfl, fun _ h => Except.noConfusion h, rfl⟩

/-- C8 witness: the inverse direction at a concrete well-formed 2 x 2 matrix,
via the theorem. -/
theorem C8_array_conversion_witness :
    WF (⟨2, 2, [1, 2, 3, 4]⟩ : Mat) ∧ 0 < (⟨2, 2, [1, 2, 3, 4]⟩ : Mat).rows ∧
      fromArray (toArray ⟨2, 2, [1, 2, 3, 4]⟩) =
        Except.ok (⟨2, 2, [1, 2, 3, 4]⟩ : Mat) :=
  ⟨rfl, Nat.zero_lt_two, C8_array_conversion.2.1 ⟨2, 2, [1, 2, 3, 4]⟩ rfl Nat.zero_lt_two⟩

/-! ### Inner products, orthonormal families and spans -/

theorem tol_pos : 0 < tol := by
  unfold tol
  norm_num

theorem dotf_add_right (n : Nat) (u v w : Nat → ℝ) :
    dotf n u (v + w) = dotf n u v + dotf n u w := by
  unfold dotf
  rw [← Finset.sum_add_distrib]
  exact Finset.sum_congr rfl fun k _ => by simp [mul_add]

theorem dotf_sub_left (n : Nat) (u v w : Nat → ℝ) :
    dotf n (u - v) w = dotf n u w - dotf n v w := by
  rw [dotf_comm, dotf_sub_right, dotf_comm n w u, dotf_comm n w v]

theorem dotf_smul_left (n : Nat) (c : ℝ) (u v : Nat → ℝ) :
    dotf n (c • u) v = c * dotf n u v := by
  rw [dotf_comm, dotf_smul_right, dotf_comm]

theorem dotf_sum_left (n : Nat) (v : Nat → ℝ) {ι : Type} (s : Finset ι)
    (f : ι → Nat → ℝ) : dotf n (∑ j ∈ s, f j) v = ∑ j ∈ s, dotf n (f j) v := by
  rw [dotf_comm, dotf_sum_right]
  exact Finset.sum_congr rfl fun j _ => dotf_comm _ _ _

/-- Summing coefficients against a Kronecker delta. -/
theorem sum_mul_delta {m k : Nat} (hk : k < m) (c : Nat → ℝ) :
    ∑ l ∈ Finset.range m, c l * (if l = k then 1 else 0) = c k := by
  rw [Finset.sum_eq_single_of_mem k (Finset.mem_range.2 hk)
    (fun b _ hb => by rw [if_neg hb, mul_zero])]
  rw [if_pos rfl, mul_one]

/-- A vector orthogonal to the first m members of a family is orthogonal to
their span. -/
theorem dotf_eq_zero_of_mem_span {n : Nat} {g : Nat → Nat → ℝ} {m : Nat}
    {w v : Nat → ℝ} (hw : ∀ k, k < m → dotf n w (g k) = 0)
    (hv : v ∈ spanUpTo g m) : dotf n w v = 0 := by
  induction hv using Submodule.span_induction with
  | mem x hx =>
    obtain ⟨k, hk, he⟩ := hx
    rw [← he]
    exact hw k hk
  | zero => exact dotf_zero_right n w
  | add x y _ _ hx hy => rw [dotf_add_right, hx, hy, add_zero]
  | smul c x _ hx => rw [dotf_smul_right, hx, mul_zero]

theorem spanUpTo_mono (g : Nat → Nat → ℝ) {m m' : Nat} (h : m ≤ m') :
    spanUpTo g m ≤ spanUpTo g m' :=
  Submodule.span_mono fun _ ⟨k, hk, he⟩ => ⟨k, lt_of_lt_of_le hk h, he⟩

/-- Two families agreeing below m span the same first-m subspace. -/
theorem spanUpTo_congr {g g' : Nat → Nat → ℝ} {m : Nat}
    (h : ∀ k, k < m → g k = g' k) : spanUpTo g m = spanUpTo g' m := by
  unfold spanUpTo
  congr 1
  ext v
  constructor
  · rintro ⟨k, hk, he⟩
    exact ⟨k, hk, by rw [← h k hk, he]⟩
  · rintro ⟨k, hk, he⟩
    exact ⟨k, hk, by rw [h k hk, he]⟩

/-- A member of the span of an orthonormal family is the sum of its
projections on the family. -/
theorem projection_eq {n m : Nat} {g : Nat → Nat → ℝ}
    (honb : ∀ j k, j < m → k < m → dotf n (g j) (g k) = if j = k then 1 else 0)
    {v : Nat → ℝ} (hv : v ∈ spanUpTo g m) :
    v = ∑ k ∈ Finset.range m, dotf n (g k) v • g k := by
  have hset : {v | ∃ k, k < m ∧ g k = v} = Set.range fun k : Fin m => g k.1 := by
    ext u
    constructor
    · rintro ⟨k, hk, he⟩
      exact ⟨⟨k, hk⟩, he⟩
    · rintro ⟨⟨k, hk⟩, he⟩
      exact ⟨k, hk, he⟩
  rw [spanUpTo, hset] at hv
  obtain ⟨c, hc⟩ := (mem_span_range_iff_exists_fun ℝ).1 hv
  have hcoef : ∀ i : Fin m, dotf n (g i.1) v = c i := by
    intro i
    rw [← hc, dotf_sum_right]
    have hterm : ∀ l : Fin m, dotf n (g i.1) (c l • g l.1) =
        c l * (if i.1 = l.1 then 1 else 0) := by
      intro l
      rw [dotf_smul_right, honb i.1 l.1 i.2 l.2]
    rw [Finset.sum_congr rfl fun l _ => hterm l,
      Finset.sum_eq_single_of_mem i (Finset.mem_univ i) (fun b _ hb => by
        rw [if_neg fun he => hb ((Fin.ext he).symm), mul_zero]),
      if_pos rfl, mul_one]
  calc v = ∑ i : Fin m, c i • g i.1 := hc.symm
    _ = ∑ i : Fin m, dotf n (g i.1) v • g i.1 :=
        Finset.sum_congr rfl fun i _ => by rw [hcoef i]
    _ = ∑ k ∈ Finset.range m, dotf n (g k) v • g k :=
        Fin.sum_univ_eq_sum_range (fun k => dotf n (g k) v • g k) m

/-! ### The Gram-Schmidt inner loop -/

theorem gsInner_zero (ai Q : Mat) (j : Nat) (q : Mat) :
    gsInner ai Q 0 j q = some q := rfl

theorem gsInner_succ (ai Q : Mat) (fuel j : Nat) (q : Mat) :
    gsInner ai Q (fuel + 1) j q =
      if norm (subBody q (smul (dotBody (rowBody j Q) ai) (rowBody j Q))) ≤ tol then
        none
      else gsInner ai Q fuel (j + 1)
        (subBody q (smul (dotBody (rowBody j Q) ai) (rowBody j Q))) := rfl

theorem length_rowBody_le (j : Nat) (Q : Mat) :
    (rowBody j Q).data.length ≤ Q.cols :=
  List.length_take_le _ _

theorem dotf_fun_zero (n : Nat) : dotf n (0 : Nat → ℝ) (0 : Nat → ℝ) = 0 := by
  simp [dotf]

/-- What a successful inner loop returns (the fully projected residual, of
norm above tolerance when at least one check ran), and that a vanishing full
residual forces the early return. -/
theorem gsInner_char {n : Nat} (ai Q : Mat) (hQc : 0 < Q.rows → Q.cols = n) :
    ∀ fuel j q, j + fuel = Q.rows → RVecE n q →
      (∀ q', gsInner ai Q fuel j q = some q' →
        RVecE n q' ∧
        vecf q' = vecf q -
          ∑ k ∈ Finset.Ico j Q.rows, dotf n (avec Q k) (vecf ai) • avec Q k ∧
        (0 < fuel → tol < norm q')) ∧
      ((vecf q - ∑ k ∈ Finset.Ico j Q.rows,
          dotf n (avec Q k) (vecf ai) • avec Q k) = 0 →
        0 < fuel → gsInner ai Q fuel j q = none) := by
  intro fuel
  induction fuel with
  | zero =>
    intro j q hj hq
    have hempty : Finset.Ico j Q.rows = ∅ := by
      rw [show Q.rows = j by omega]
      exact Finset.Ico_self j
    constructor
    · intro q' h
      rw [gsInner_zero, Option.some.injEq] at h
      subst h
      exact ⟨hq, by rw [hempty, Finset.sum_empty, sub_zero], fun h0 => absurd h0 (by omega)⟩
    · intro _ h0
      exact absurd h0 (by omega)
  | succ fuel ih =>
    intro j q hj hq
    have hjQ : j < Q.rows := by omega
    have hQr : 0 < Q.rows := by omega
    have hcols : Q.cols = n := hQc hQr
    rw [gsInner_succ]
    set q1 := subBody q (smul (dotBody (rowBody j Q) ai) (rowBody j Q)) with hq1def
    have hq1 : RVecE n q1 := RVecE_subBody _ hq
    have hcoef : dotBody (rowBody j Q) ai = dotf n (avec Q j) (vecf ai) :=
      dotBody_eq (le_trans (length_rowBody_le j Q) (le_of_eq hcols))
    have hvq1 : vecf q1 = vecf q - dotf n (avec Q j) (vecf ai) • avec Q j := by
      rw [hq1def, vecf_subBody hq (fun k hk => by
        rw [vecf_smul, vecf_rowBody, hcols, if_neg (by omega), zero_mul])]
      funext k
      simp only [Pi.sub_apply, Pi.smul_apply, smul_eq_mul]
      rw [vecf_smul, hcoef]
      have ha : avec Q j k = vecf (rowBody j Q) k := rfl
      rw [ha]
      ring
    have hsplit : ∑ k ∈ Finset.Ico j Q.rows, dotf n (avec Q k) (vecf ai) • avec Q k =
        dotf n (avec Q j) (vecf ai) • avec Q j +
          ∑ k ∈ Finset.Ico (j + 1) Q.rows, dotf n (avec Q k) (vecf ai) • avec Q k :=
      Finset.sum_eq_sum_Ico_succ_bot hjQ _
    by_cases hcheck : norm q1 ≤ tol
    · rw [if_pos hcheck]
      exact ⟨fun q' h => Option.noConfusion h, fun _ _ => rfl⟩
    · rw [if_neg hcheck]
      have hih := ih (j + 1) q1 (by omega) hq1
      constructor
      · intro q' h
        cases fuel with
        | zero =>
          rw [gsInner_zero, Option.some.injEq] at h
          subst h
          refine ⟨hq1, ?_, fun _ => not_le.1 hcheck⟩
          have hempty : Finset.Ico (j + 1) Q.rows = ∅ := by
            rw [show Q.rows = j + 1 by omega]
            exact Finset.Ico_self _
          rw [hvq1, hsplit, hempty, Finset.sum_empty, add_zero]
        | succ f =>
          obtain ⟨hr1, hr2, hr3⟩ := hih.1 q' h
          refine ⟨hr1, ?_, fun _ => hr3 (by omega)⟩
          rw [hr2, hvq1, hsplit, sub_sub]
      · intro hres hpos
        have hres1 : vecf q1 -
            ∑ k ∈ Finset.Ico (j + 1) Q.rows, dotf n (avec Q k) (vecf ai) • avec Q k = 0 := by
          rw [hvq1, sub_sub, ← hsplit]
          exact hres
        cases fuel with
        | zero =>
          exfalso
          have hempty : Finset.Ico (j + 1) Q.rows = ∅ := by
            rw [show Q.rows = j + 1 by omega]
            exact Finset.Ico_self _
          rw [hempty, Finset.sum_empty, sub_zero] at hres1
          have hn0 : norm q1 = 0 := by
            rw [norm_eq_sqrt_dotf hq1.1 hq1.2.1, hres1, dotf_fun_zero, Real.sqrt_zero]
          exact hcheck (by rw [hn0]; exact le_of_lt tol_pos)
        | succ f =>
          exact hih.2 hres1 (by omega)

/-! ### The Gram-Schmidt outer loop -/

theorem gsOuter_zero (A : Mat) (i : Nat) (Q : Mat) : gsOuter A 0 i Q = Q := rfl

theorem gsOuter_succ (A : Mat) (fuel i : Nat) (Q : Mat) :
    gsOuter A (fuel + 1) i Q =
      match gsInner (rowBody i A) Q Q.rows 0 (clone (rowBody i A)) with
      | none => Q
      | some q => gsOuter A fuel (i + 1) (appendRow Q (smul (1 / norm q) q)) := rfl

theorem avec_def (A : Mat) (i : Nat) : avec A i = vecf (rowBody i A) := rfl

/-- The column count after appending an n-entry row to an accumulator whose
column count is n once non-empty. -/
theorem cols_appendRow_n {n : Nat} {Q qn : Mat} (hr0 : Q.rows = 0 → Q.cols = 0)
    (hQc : 0 < Q.rows → Q.cols = n) (hlen : qn.data.length = n) :
    (appendRow Q qn).cols = n := by
  show (if Q.cols = 0 then qn.data.length else Q.cols) = n
  by_cases hc : Q.cols = 0
  · rw [if_pos hc, hlen]
  · rw [if_neg hc]
    rcases Nat.eq_zero_or_pos Q.rows with hr | hr
    · exact absurd (hr0 hr) hc
    · exact hQc hr

theorem WF_appendRow_n {n : Nat} {Q qn : Mat} (hWF : WF Q) (hr0 : Q.rows = 0 → Q.cols = 0)
    (hQc : 0 < Q.rows → Q.cols = n) (hlen : qn.data.length = n) :
    WF (appendRow Q qn) := by
  unfold WF appendRow
  simp only [List.length_append]
  by_cases hc : Q.cols = 0
  · rcases Nat.eq_zero_or_pos Q.rows with hr | hr
    · rw [if_pos hc]
      rw [WF, hr, hc, Nat.mul_zero] at hWF
      simp [hWF, hr, hlen]
    · have hn0 : n = 0 := by rw [← hQc hr, hc]
      rw [if_pos hc]
      rw [WF, hc, Nat.mul_zero] at hWF
      simp [hWF, hlen, hn0]
  · have hr : 0 < Q.rows := Nat.pos_of_ne_zero fun h => hc (hr0 h)
    rw [if_neg hc, hWF, hlen, hQc hr]
    ring

/-- Appending an n-entry row leaves the earlier row views unchanged. -/
theorem avec_appendRow_lt {n : Nat} {Q qn : Mat} (hWF : WF Q) (hQcn : Q.cols = n)
    (hlen : qn.data.length = n) {j : Nat} (hj : j < Q.rows) :
    avec (appendRow Q qn) j = avec Q j := by
  funext k
  have hcols' : (appendRow Q qn).cols = n := by
    show (if Q.cols = 0 then qn.data.length else Q.cols) = n
    by_cases hc : Q.cols = 0
    · rw [if_pos hc, hlen]
    · rw [if_neg hc, hQcn]
  rw [avec_def, avec_def, vecf_rowBody, vecf_rowBody, hcols', hQcn]
  rcases Nat.lt_or_ge k n with hk | hk
  · rw [if_pos hk, if_pos hk]
    unfold ent
    rw [data_appendRow, hcols', hQcn]
    have hidx : j * n + k < Q.data.length := by
      rw [hWF, hQcn]
      have h1 : (j + 1) * n ≤ Q.rows * n := Nat.mul_le_mul_right n hj
      have h2 : (j + 1) * n = j * n + n := by ring
      omega
    exact List.getD_append _ _ _ _ hidx
  · rw [if_neg (by omega), if_neg (by omega)]

/-- The appended row is the new last row view. -/
theorem avec_appendRow_self {n : Nat} {Q qn : Mat} (hWF : WF Q)
    (hr0 : Q.rows = 0 → Q.cols = 0) (hQc : 0 < Q.rows → Q.cols = n)
    (hlen : qn.data.length = n) : avec (appendRow Q qn) Q.rows = vecf qn := by
  funext k
  rw [avec_def, vecf_rowBody, cols_appendRow_n hr0 hQc hlen]
  rcases Nat.lt_or_ge k n with hk | hk
  · rw [if_pos hk]
    show (Q.data ++ qn.data).getD (Q.rows * (appendRow Q qn).cols + k) 0 = vecf qn k
    rw [cols_appendRow_n hr0 hQc hlen]
    have hQlen : Q.data.length = Q.rows * n := by
      rcases Nat.eq_zero_or_pos Q.rows with hr | hr
      · rw [hWF, hr]
        simp
      · rw [hWF, hQc hr]
    rw [List.getD_append_right _ _ _ _ (by omega), hQlen]
    congr 1
    omega
  · rw [if_neg (by omega)]
    exact (vecf_eq_zero_of_le (le_of_eq hlen) hk).symm

/-- The Gram-Schmidt run either completes with the full invariant (all rows
accepted, orthonormal, spanning) or returns early with strictly fewer rows
than A.  Requires a nonzero first row of A so that the first normalization
divides a nonzero norm. -/
theorem gsOuter_inv (A : Mat) (hA : WF A) (h0 : vecf (rowBody 0 A) ≠ 0) :
    ∀ fuel i Q, i + fuel = A.rows → Inv A Q i →
      ((gsOuter A fuel i Q).rows = A.rows ∧ Inv A (gsOuter A fuel i Q) A.rows) ∨
        (gsOuter A fuel i Q).rows < A.rows := by
  intro fuel
  induction fuel with
  | zero =>
    intro i Q hfi hInv
    left
    rw [gsOuter_zero]
    have hi : i = A.rows := by omega
    subst hi
    exact ⟨hInv.1, hInv⟩
  | succ fuel ih =>
    intro i Q hfi hInv
    obtain ⟨hQr, hQWF, hQemp, hQc, honb, hspan, hpos⟩ := hInv
    have hi : i < A.rows := by omega
    have hai : RVecE A.cols (rowBody i A) := RVecE_rowBody hA hi
    rw [gsOuter_succ]
    cases hg : gsInner (rowBody i A) Q Q.rows 0 (clone (rowBody i A)) with
    | none =>
      right
      show Q.rows < A.rows
      omega
    | some q =>
      have hchar := (gsInner_char (rowBody i A) Q
        (fun h => hQc (by omega)) Q.rows 0 (clone (rowBody i A)) (by omega)
        (by rw [clone_eq]; exact hai)).1 q hg
      obtain ⟨hqE, hqvec, hqnorm⟩ := hchar
      rw [clone_eq] at hqvec
      rw [← avec_def] at hqvec
      have hqvec' : vecf q = avec A i -
          ∑ k ∈ Finset.range i, dotf A.cols (avec Q k) (avec A i) • avec Q k := by
        rw [hqvec, hQr, ← Finset.range_eq_Ico]
      have hρne : vecf q ≠ 0 := by
        rcases Nat.eq_zero_or_pos i with hi0 | hip
        · subst hi0
          rw [hqvec', Finset.range_zero, Finset.sum_empty, sub_zero]
          exact h0
        · intro hz
          have hlt := hqnorm (by omega)
          rw [norm_eq_sqrt_dotf hqE.1 hqE.2.1, hz, dotf_fun_zero, Real.sqrt_zero] at hlt
          exact absurd hlt (not_lt.2 (le_of_lt tol_pos))
      have hdd : 0 < dotf A.cols (vecf q) (vecf q) :=
        dotf_self_pos (fun k hk => vecf_eq_zero_of_le (le_of_eq hqE.2.2) hk) hρne
      have hnq : 0 < norm q := by
        rw [norm_eq_sqrt_dotf hqE.1 hqE.2.1]
        exact Real.sqrt_pos.2 hdd
      have hqnE : RVecE A.cols (smul (1 / norm q) q) := RVecE_smul _ hqE
      have hvqn : vecf (smul (1 / norm q) q) = (1 / norm q) • vecf q := by
        funext k
        rw [vecf_smul]
        simp [mul_comm]
      have hr0 : Q.rows = 0 → Q.cols = 0 := fun h => by
        rw [hQemp (by omega)]
        rfl
      have hQcr : 0 < Q.rows → Q.cols = A.cols := fun h => hQc (by omega)
      have hcolsQ' : (appendRow Q (smul (1 / norm q) q)).cols = A.cols :=
        cols_appendRow_n hr0 hQcr hqnE.2.2
      have hWFQ' : WF (appendRow Q (smul (1 / norm q) q)) :=
        WF_appendRow_n hQWF hr0 hQcr hqnE.2.2
      have hglt : ∀ j, j < i → avec (appendRow Q (smul (1 / norm q) q)) j = avec Q j :=
        fun j hj => avec_appendRow_lt hQWF (hQc (by omega)) hqnE.2.2 (by omega)
      have hgi : avec (appendRow Q (smul (1 / norm q) q)) i = vecf (smul (1 / norm q) q) := by
        rw [← hQr]
        exact avec_appendRow_self hQWF hr0 hQcr hqnE.2.2
      have hρperp : ∀ k, k < i → dotf A.cols (vecf q) (avec Q k) = 0 := by
        intro k hk
        rw [hqvec', dotf_sub_left, dotf_sum_left]
        have hterm : ∀ l ∈ Finset.range i,
            dotf A.cols (dotf A.cols (avec Q l) (avec A i) • avec Q l) (avec Q k) =
              dotf A.cols (avec Q l) (avec A i) * (if l = k then 1 else 0) := by
          intro l hl
          rw [dotf_smul_left, honb l k (Finset.mem_range.1 hl) hk]
        rw [Finset.sum_congr rfl hterm, sum_mul_delta hk, dotf_comm]
        ring
      have honb' : ∀ j k, j < i + 1 → k < i + 1 →
          dotf A.cols (avec (appendRow Q (smul (1 / norm q) q)) j)
            (avec (appendRow Q (smul (1 / norm q) q)) k) = if j = k then 1 else 0 := by
        intro j k hj hk
        rcases Nat.lt_or_ge j i with hji | hji
        · rcases Nat.lt_or_ge k i with hki | hki
          · rw [hglt j hji, hglt k hki]
            exact honb j k hji hki
          · have hkeq : k = i := by omega
            subst hkeq
            rw [hglt j hji, hgi, if_neg (by omega), hvqn, dotf_smul_right,
              dotf_comm A.cols (avec Q j) (vecf q), hρperp j hji, mul_zero]
        · have hjeq : j = i := by omega
          subst hjeq
          rcases Nat.lt_or_ge k j with hki | hki
          · rw [hgi, hglt k hki, if_neg (by omega), hvqn, dotf_smul_left,
              hρperp k hki, mul_zero]
          · have hkeq : k = j := by omega
            subst hkeq
            rw [hgi, if_pos rfl, hvqn, dotf_smul_left, dotf_smul_right]
            have hsq : norm q * norm q = dotf A.cols (vecf q) (vecf q) := by
              rw [norm_eq_sqrt_dotf hqE.1 hqE.2.1]
              exact Real.mul_self_sqrt (dotf_self_nonneg _ _)
            have hrw : 1 / norm q * (1 / norm q * dotf A.cols (vecf q) (vecf q)) =
                dotf A.cols (vecf q) (vecf q) / (norm q * norm q) := by
              ring
            rw [hrw, hsq, div_self (ne_of_gt hdd)]
      have hspan' : ∀ j, j < i + 1 →
          avec A j ∈ spanUpTo (avec (appendRow Q (smul (1 / norm q) q))) (j + 1) := by
        intro j hj
        rcases Nat.lt_or_ge j i with hji | hji
        · have hcongr : spanUpTo (avec Q) (j + 1) =
              spanUpTo (avec (appendRow Q (smul (1 / norm q) q))) (j + 1) :=
            spanUpTo_congr fun k hk => (hglt k (by omega)).symm
          rw [← hcongr]
          exact hspan j hji
        · have hjeq : j = i := by omega
          subst hjeq
          have hval : avec A j = norm q • vecf (smul (1 / norm q) q) +
              ∑ k ∈ Finset.range j, dotf A.cols (avec Q k) (avec A j) • avec Q k := by
            rw [hvqn, smul_smul, mul_one_div, div_self (ne_of_gt hnq), one_smul,
              hqvec', sub_add_cancel]
          rw [hval]
          refine Submodule.add_mem _ ?_ ?_
          · exact Submodule.smul_mem _ _ (Submodule.subset_span ⟨j, by omega, hgi⟩)
          · refine Submodule.sum_mem _ fun k hk => ?_
            refine Submodule.smul_mem _ _ (Submodule.subset_span ?_)
            exact ⟨k, by
              have := Finset.mem_range.1 hk
              omega, hglt k (Finset.mem_range.1 hk)⟩
      have hpos' : ∀ j, j < i + 1 →
          0 < dotf A.cols (avec (appendRow Q (smul (1 / norm q) q)) j) (avec A j) := by
        intro j hj
        rcases Nat.lt_or_ge j i with hji | hji
        · rw [hglt j hji]
          exact hpos j hji
        · have hjeq : j = i := by omega
          subst hjeq
          rw [hgi]
          have hai_eq : avec A j = vecf q +
              ∑ k ∈ Finset.range j, dotf A.cols (avec Q k) (avec A j) • avec Q k := by
            rw [hqvec', sub_add_cancel]
          rw [hai_eq, dotf_add_right, dotf_sum_right]
          have hz : ∀ k ∈ Finset.range j,
              dotf A.cols (vecf (smul (1 / norm q) q))
                (dotf A.cols (avec Q k) (avec A j) • avec Q k) = 0 := by
            intro k hk
            rw [dotf_smul_right, hvqn, dotf_smul_left,
              hρperp k (Finset.mem_range.1 hk), mul_zero, mul_zero]
          rw [Finset.sum_eq_zero hz, add_zero, hvqn, dotf_smul_left]
          exact mul_pos (by positivity) hdd
      exact ih (i + 1) (appendRow Q (smul (1 / norm q) q)) (by omega)
        ⟨by simp [hQr], hWFQ', fun h => absurd h (by omega), fun _ => hcolsQ',
          honb', hspan', hpos'⟩

theorem Inv_empty (A : Mat) : Inv A makeEmptyMatrix 0 :=
  ⟨rfl, rfl, fun _ => rfl, fun h => absurd h (by omega),
    fun _ _ hj _ => absurd hj (by omega),
    fun _ hj => absurd hj (by omega),
    fun _ hj => absurd hj (by omega)⟩

/-- On completion (full row count) with a nonzero first row, the Gram-Schmidt
result carries the full invariant. -/
theorem gramSchmidt_complete_inv (A : Mat) (hA : WF A) (h0 : avec A 0 ≠ 0)
    (hcomp : (gramSchmidt A).rows = A.rows) : Inv A (gramSchmidt A) A.rows := by
  rw [gramSchmidt] at hcomp ⊢
  rcases gsOuter_inv A hA h0 A.rows 0 makeEmptyMatrix (by omega) (Inv_empty A) with
    ⟨_, hInv⟩ | hlt
  · exact hInv
  · omega

/-- A row of A lying in the span of the earlier rows forces an early return. -/
theorem gramSchmidt_rows_lt_of_dep (A : Mat) (hA : WF A) (h0 : avec A 0 ≠ 0)
    (d : Nat) (hd : d < A.rows) (hmem : avec A d ∈ spanUpTo (avec A) d) :
    (gramSchmidt A).rows < A.rows := by
  rw [gramSchmidt]
  rcases gsOuter_inv A hA h0 A.rows 0 makeEmptyMatrix (by omega) (Inv_empty A) with
    ⟨hrows, hInv⟩ | hlt
  · exfalso
    obtain ⟨_, _, _, _, honb, hspan, hpos⟩ := hInv
    have hsub : spanUpTo (avec A) d ≤
        spanUpTo (avec (gsOuter A A.rows 0 makeEmptyMatrix)) d := by
      apply Submodule.span_le.2
      rintro v ⟨k, hk, he⟩
      rw [← he]
      exact spanUpTo_mono _ (by omega : k + 1 ≤ d) (hspan k (by omega))
    have hz : dotf A.cols (avec (gsOuter A A.rows 0 makeEmptyMatrix) d) (avec A d) = 0 :=
      dotf_eq_zero_of_mem_span
        (fun k hk => by rw [honb d k hd (by omega), if_neg (by omega)]) (hsub hmem)
    exact absurd (hpos d hd) (by rw [hz]; exact lt_irrefl 0)
  · exact hlt

/-- Linear dependence of the rows yields a first row lying in the span of the
ones before it. -/
theorem exists_dep_of_not_linearIndependent {A : Mat}
    (h : ¬ LinearIndependent ℝ fun i : Fin A.rows => avec A i) :
    ∃ d, d < A.rows ∧ avec A d ∈ spanUpTo (avec A) d := by
  rw [Fintype.not_linearIndependent_iff] at h
  obtain ⟨g, hsum, i0, hi0⟩ := h
  have hSne : (Finset.univ.filter fun i : Fin A.rows => g i ≠ 0).Nonempty :=
    ⟨i0, by simp [hi0]⟩
  set d := (Finset.univ.filter fun i : Fin A.rows => g i ≠ 0).max' hSne with hddef
  have hd : g d ≠ 0 :=
    (Finset.mem_filter.1 ((Finset.univ.filter fun i : Fin A.rows => g i ≠ 0).max'_mem hSne)).2
  have hmax : ∀ i : Fin A.rows, g i ≠ 0 → i ≤ d := fun i hi =>
    Finset.le_max' _ i (by simp [hi])
  refine ⟨d.1, d.2, ?_⟩
  have hsplit : g d • avec A d.1 =
      - ∑ i ∈ Finset.univ.erase d, g i • avec A i.1 := by
    refine eq_neg_of_add_eq_zero_left ?_
    rw [Finset.add_sum_erase _ (fun i : Fin A.rows => g i • avec A i.1) (Finset.mem_univ d)]
    exact hsum
  have hform : avec A d.1 = (g d)⁻¹ • (- ∑ i ∈ Finset.univ.erase d, g i • avec A i.1) := by
    rw [← hsplit, smul_smul, inv_mul_cancel₀ hd, one_smul]
  rw [hform]
  refine Submodule.smul_mem _ _ (Submodule.neg_mem _ (Submodule.sum_mem _ fun i hi => ?_))
  by_cases hgi : g i = 0
  · rw [hgi, zero_smul]
    exact Submodule.zero_mem _
  · refine Submodule.smul_mem _ _ (Submodule.subset_span ?_)
    have hid : i ≠ d := (Finset.mem_erase.1 hi).1
    have hlt : i < d := lt_of_le_of_ne (hmax i hgi) hid
    exact ⟨i.1, hlt, rfl⟩

/-! ### Claim C4: Gram-Schmidt detects dependent rows -/

/-- C4 (amended): for every well-formed matrix A whose FIRST ROW IS NONZERO
and whose rows are linearly dependent, gramSchmidt(A) returns a matrix with
strictly fewer rows than A (the early return fires at or before the first
dependent row; with a zero first row the dependency test is never reached for
it and the zero row is appended instead — see the counterexample and C10). -/
theorem C4_gramSchmidt_dependent_rows (A : Mat) (hA : WF A) (h0 : avec A 0 ≠ 0)
    (hdep : ¬ LinearIndependent ℝ fun i : Fin A.rows => avec A i) :
    (gramSchmidt A).rows < A.rows := by
  obtain ⟨d, hd, hmem⟩ := exists_dep_of_not_linearIndependent hdep
  exact gramSchmidt_rows_lt_of_dep A hA h0 d hd hmem

/-- C4 counterexample: the 1 x 1 zero matrix has linearly dependent rows (a
zero row) but gramSchmidt returns it with the SAME number of rows: the norm
check sits inside the projection loop, which is empty for the first row, so
the zero row is normalized (division by zero; NaN entries in JavaScript, junk
zeros here) and appended rather than detected. -/
theorem C4_gramSchmidt_dependent_rows_counterexample :
    WF (⟨1, 1, [0]⟩ : Mat) ∧
      ¬ LinearIndependent ℝ (fun i : Fin (⟨1, 1, [0]⟩ : Mat).rows => avec ⟨1, 1, [0]⟩ i) ∧
      (gramSchmidt ⟨1, 1, [0]⟩).rows = (⟨1, 1, [0]⟩ : Mat).rows ∧
      ¬ (gramSchmidt ⟨1, 1, [0]⟩).rows < (⟨1, 1, [0]⟩ : Mat).rows := by
  have hzero : avec (⟨1, 1, [0]⟩ : Mat) 0 = 0 := by
    funext k
    rw [avec_def, vecf_rowBody]
    rcases Nat.lt_or_ge k 1 with hk | hk
    · have hk0 : k = 0 := by omega
      subst hk0
      rw [if_pos (by decide)]
      rfl
    · rw [if_neg (Nat.not_lt.2 hk)]
      rfl
  have hrows : (gramSchmidt ⟨1, 1, [0]⟩).rows = 1 := rfl
  exact ⟨rfl, fun h => h.ne_zero 0 hzero, hrows, by rw [hrows]; decide⟩

/-- C4 witness: the 2 x 1 matrix with two equal nonzero rows, via the
theorem. -/
theorem C4_gramSchmidt_dependent_rows_witness :
    WF (⟨2, 1, [1, 1]⟩ : Mat) ∧ avec (⟨2, 1, [1, 1]⟩ : Mat) 0 ≠ 0 ∧
      ¬ LinearIndependent ℝ (fun i : Fin (⟨2, 1, [1, 1]⟩ : Mat).rows => avec ⟨2, 1, [1, 1]⟩ i) ∧
      (gramSchmidt ⟨2, 1, [1, 1]⟩).rows < (⟨2, 1, [1, 1]⟩ : Mat).rows := by
  have h0 : avec (⟨2, 1, [1, 1]⟩ : Mat) 0 ≠ 0 := by
    intro h
    have h00 : avec (⟨2, 1, [1, 1]⟩ : Mat) 0 0 = 0 := by rw [h]; rfl
    have h01 : avec (⟨2, 1, [1, 1]⟩ : Mat) 0 0 = 1 := rfl
    rw [h01] at h00
    exact one_ne_zero h00
  have heq : avec (⟨2, 1, [1, 1]⟩ : Mat) 0 = avec (⟨2, 1, [1, 1]⟩ : Mat) 1 := by
    funext k
    rw [avec_def, avec_def, vecf_rowBody, vecf_rowBody]
    rcases Nat.lt_or_ge k 1 with hk | hk
    · have hk0 : k = 0 := by omega
      subst hk0
      rw [if_pos (by decide), if_pos (by decide)]
      rfl
    · rw [if_neg (Nat.not_lt.2 hk), if_neg (Nat.not_lt.2 hk)]
  have hdep : ¬ LinearIndependent ℝ
      (fun i : Fin (⟨2, 1, [1, 1]⟩ : Mat).rows => avec ⟨2, 1, [1, 1]⟩ i) := by
    intro h
    have h01 : (fun i : Fin (⟨2, 1, [1, 1]⟩ : Mat).rows => avec ⟨2, 1, [1, 1]⟩ i)
        (0 : Fin 2) =
        (fun i : Fin (⟨2, 1, [1, 1]⟩ : Mat).rows => avec ⟨2, 1, [1, 1]⟩ i)
        (1 : Fin 2) := heq
    have := h.injective h01
    exact absurd this (by decide)
  exact ⟨rfl, h0, hdep, C4_gramSchmidt_dependent_rows ⟨2, 1, [1, 1]⟩ rfl h0 hdep⟩

/-! ### Claim C2: QR decomposition -/

theorem qr_def (A : Mat) :
    qr A = (mul (tr (tr (gramSchmidt (tr A)))) A).map
      fun R => (tr (gramSchmidt (tr A)), R) := rfl

/-- C2 (amended): for every well-formed A whose first column is nonzero and
whose Gram-Schmidt run on tr(A) completes with A.cols rows (no dependency
detected — the check the spec tells callers to make), qr(A) succeeds and
returns (Q, R) with multiply(Q, R) succeeding and equal to A exactly (hence
elementwise within 1e-9), the columns of Q orthonormal, and R
upper-triangular. -/
theorem C2_qr_decomposition (A : Mat) (hA : WF A) (h0 : avec (tr A) 0 ≠ 0)
    (hcomp : (gramSchmidt (tr A)).rows = A.cols) :
    ∃ Q R, qr A = Except.ok (Q, R) ∧ mul Q R = Except.ok A ∧
      (∀ i j, i < Q.cols → j < Q.cols →
        ∑ k ∈ Finset.range Q.rows, ent Q k i * ent Q k j = if i = j then 1 else 0) ∧
      (∀ i j, j < i → i < R.rows → ent R i j = 0) := by
  have hWB : WF (tr A) := WF_tr A
  obtain ⟨hGr, hGWF, _, hGc, honb0, hspan0, hpos0⟩ :=
    gramSchmidt_complete_inv (tr A) hWB h0 hcomp
  have hn : 0 < A.cols := by
    by_contra hcn
    push_neg at hcn
    apply h0
    funext k
    show vecf (rowBody 0 (tr A)) k = 0
    rw [vecf_rowBody]
    by_cases hk : k < (tr A).cols
    · rw [if_pos hk]
      refine List.getD_eq_default _ _ ?_
      have hlen : (tr A).data.length = A.cols * A.rows := by
        have h := WF_tr A
        rw [WF] at h
        exact h
      have hc0 : A.cols = 0 := by omega
      rw [hlen, hc0, Nat.zero_mul]
      omega
    · rw [if_neg hk]
  have hGrows : (gramSchmidt (tr A)).rows = A.cols := hcomp
  have hGcols : (gramSchmidt (tr A)).cols = A.rows := hGc (by
    show 0 < A.cols
    exact hn)
  have honb : ∀ j k, j < A.cols → k < A.cols →
      dotf A.rows (avec (gramSchmidt (tr A)) j) (avec (gramSchmidt (tr A)) k) =
        if j = k then 1 else 0 := honb0
  have hspan : ∀ j, j < A.cols →
      avec (tr A) j ∈ spanUpTo (avec (gramSchmidt (tr A))) (j + 1) := hspan0
  have hent_g : ∀ i k, i < A.cols → k < A.rows →
      avec (gramSchmidt (tr A)) i k = ent (gramSchmidt (tr A)) i k := by
    intro i k _ hk
    rw [avec_def, vecf_rowBody, if_pos (by rw [hGcols]; exact hk)]
  have hent_a : ∀ j k, j < A.cols → k < A.rows → avec (tr A) j k = ent A k j := by
    intro j k hj hk
    rw [avec_def, vecf_rowBody, if_pos (show k < (tr A).cols from hk)]
    exact ent_tr (A := A) hj hk
  have hQdef : tr (tr (gramSchmidt (tr A))) = gramSchmidt (tr A) := tr_tr_eq hGWF
  have hguard : ¬ ((tr (tr (gramSchmidt (tr A)))).cols ≠ A.rows) := by
    rw [hQdef, hGcols]
    exact fun h => h rfl
  have hqr : qr A = Except.ok (tr (gramSchmidt (tr A)),
      mulBody (tr (tr (gramSchmidt (tr A)))) A) := by
    rw [qr_def, mul, if_neg hguard]
    rfl
  have hR' : mulBody (tr (tr (gramSchmidt (tr A)))) A = mulBody (gramSchmidt (tr A)) A := by
    rw [hQdef]
  have hRent : ∀ i j, i < A.cols → j < A.cols →
      ent (mulBody (gramSchmidt (tr A)) A) i j =
        dotf A.rows (avec (gramSchmidt (tr A)) i) (avec (tr A) j) := by
    intro i j hi hj
    rw [ent_mulBody (by rw [hGrows]; exact hi) hj,
      show Finset.range (gramSchmidt (tr A)).cols = Finset.range A.rows by rw [hGcols]]
    unfold dotf
    refine Finset.sum_congr rfl fun k hk => ?_
    rw [hent_g i k hi (Finset.mem_range.1 hk), hent_a j k hj (Finset.mem_range.1 hk)]
  refine ⟨tr (gramSchmidt (tr A)), mulBody (tr (tr (gramSchmidt (tr A)))) A, hqr, ?_, ?_, ?_⟩
  · -- multiply(Q, R) = A
    have hgmul : ¬ ((tr (gramSchmidt (tr A))).cols ≠
        (mulBody (tr (tr (gramSchmidt (tr A)))) A).rows) := by
      rw [cols_tr, rows_mulBody, rows_tr, cols_tr]
      exact fun h => h rfl
    rw [mul, if_neg hgmul]
    congr 1
    refine Mat_ext (WF_mulBody _ _) hA ?_ ?_ ?_
    · rw [rows_mulBody, rows_tr, hGcols]
    · rw [cols_mulBody, cols_mulBody]
    · intro k j hk hj
      have hkA : k < A.rows := by
        rw [rows_mulBody, rows_tr, hGcols] at hk
        exact hk
      have hjA : j < A.cols := by
        rw [cols_mulBody, cols_mulBody] at hj
        exact hj
      rw [ent_mulBody (by rw [rows_tr, hGcols]; exact hkA)
        (by rw [cols_mulBody]; exact hjA)]
      have hrange : Finset.range (tr (gramSchmidt (tr A))).cols = Finset.range A.cols := by
        rw [cols_tr, hGrows]
      rw [hrange]
      have hproj := projection_eq (n := A.rows) (m := A.cols)
        (g := avec (gramSchmidt (tr A))) honb
        (spanUpTo_mono _ (by omega) (hspan j hjA))
      have hprojk := congrFun hproj k
      rw [Finset.sum_apply] at hprojk
      have hterm : ∀ i ∈ Finset.range A.cols,
          ent (tr (gramSchmidt (tr A))) k i *
            ent (mulBody (tr (tr (gramSchmidt (tr A)))) A) i j =
          dotf A.rows (avec (gramSchmidt (tr A)) i) (avec (tr A) j) *
            avec (gramSchmidt (tr A)) i k := by
        intro i hi
        have hiA : i < A.cols := Finset.mem_range.1 hi
        rw [hR', hRent i j hiA hjA,
          ent_tr (A := gramSchmidt (tr A)) (by rw [hGcols]; exact hkA)
            (by rw [hGrows]; exact hiA),
          ← hent_g i k hiA hkA]
        ring
      rw [Finset.sum_congr rfl hterm]
      have hsum : ∑ i ∈ Finset.range A.cols,
          dotf A.rows (avec (gramSchmidt (tr A)) i) (avec (tr A) j) *
            avec (gramSchmidt (tr A)) i k = avec (tr A) j k := by
        rw [hprojk]
        refine Finset.sum_congr rfl fun i _ => ?_
        rw [Pi.smul_apply, smul_eq_mul]
      rw [hsum, hent_a j k hjA hkA]
  · -- orthonormal columns of Q
    intro i j hi hj
    have hiA : i < A.cols := by
      rw [cols_tr, hGrows] at hi
      exact hi
    have hjA : j < A.cols := by
      rw [cols_tr, hGrows] at hj
      exact hj
    have hrange : Finset.range (tr (gramSchmidt (tr A))).rows = Finset.range A.rows := by
      rw [rows_tr, hGcols]
    rw [hrange]
    have hterm : ∀ k ∈ Finset.range A.rows,
        ent (tr (gramSchmidt (tr A))) k i * ent (tr (gramSchmidt (tr A))) k j =
          avec (gramSchmidt (tr A)) i k * avec (gramSchmidt (tr A)) j k := by
      intro k hk
      have hkA : k < A.rows := Finset.mem_range.1 hk
      rw [ent_tr (A := gramSchmidt (tr A)) (by rw [hGcols]; exact hkA)
          (by rw [hGrows]; exact hiA),
        ent_tr (A := gramSchmidt (tr A)) (by rw [hGcols]; exact hkA)
          (by rw [hGrows]; exact hjA),
        hent_g i k hiA hkA, hent_g j k hjA hkA]
    rw [Finset.sum_congr rfl hterm]
    exact honb i j hiA hjA
  · -- R upper triangular
    intro i j hji hiR
    have hiA : i < A.cols := by
      rw [rows_mulBody, hQdef, hGrows] at hiR
      exact hiR
    rw [hR', hRent i j hiA (by omega)]
    have hmem : avec (tr A) j ∈ spanUpTo (avec (gramSchmidt (tr A))) i :=
      spanUpTo_mono _ (by omega) (hspan j (by omega))
    exact dotf_eq_zero_of_mem_span
      (fun k hk => by rw [honb i k hiA (by omega), if_neg (by omega)]) hmem

/-- Concrete evaluation: Gram-Schmidt on the dependent rows (1,0), (1,0),
(0,1) stops at the second row (its residual is exactly zero) and returns the
single orthonormal row (1,0). -/
theorem gramSchmidt_dep_example :
    gramSchmidt (⟨3, 2, [(1:ℝ), 0, 1, 0, 0, 1]⟩ : Mat) = ⟨1, 2, [(1:ℝ), 0]⟩ := by
  have hn1 : norm (⟨1, 2, [(1 : ℝ), 0]⟩ : Mat) = 1 := by
    norm_num [norm, ent, Finset.sum_range_succ, Real.sqrt_one]
  have hstep1 : gramSchmidt (⟨3, 2, [(1:ℝ), 0, 1, 0, 0, 1]⟩ : Mat) =
      gsOuter (⟨3, 2, [(1:ℝ), 0, 1, 0, 0, 1]⟩ : Mat) 2 1
        (appendRow makeEmptyMatrix
          (smul (1 / norm (clone (rowBody 0 (⟨3, 2, [(1:ℝ), 0, 1, 0, 0, 1]⟩ : Mat))))
            (clone (rowBody 0 (⟨3, 2, [(1:ℝ), 0, 1, 0, 0, 1]⟩ : Mat))))) := by
    rw [gramSchmidt]
    show gsOuter _ 3 0 makeEmptyMatrix = _
    rw [gsOuter_succ]
    rfl
  have hacc : appendRow makeEmptyMatrix
      (smul (1 / norm (clone (rowBody 0 (⟨3, 2, [(1:ℝ), 0, 1, 0, 0, 1]⟩ : Mat))))
        (clone (rowBody 0 (⟨3, 2, [(1:ℝ), 0, 1, 0, 0, 1]⟩ : Mat)))) =
      ⟨1, 2, [(1:ℝ), 0]⟩ := by
    have h1 : clone (rowBody 0 (⟨3, 2, [(1:ℝ), 0, 1, 0, 0, 1]⟩ : Mat)) =
        (⟨1, 2, [(1:ℝ), 0]⟩ : Mat) := rfl
    rw [h1, hn1]
    have hsm : smul ((1:ℝ) / 1) (⟨1, 2, [(1:ℝ), 0]⟩ : Mat) = ⟨1, 2, [(1:ℝ), 0]⟩ := by
      norm_num [smul]
    rw [hsm]
    rfl
  have hcheck : norm (subBody (clone (rowBody 1 (⟨3, 2, [(1:ℝ), 0, 1, 0, 0, 1]⟩ : Mat)))
      (smul (dotBody (rowBody 0 (⟨1, 2, [(1:ℝ), 0]⟩ : Mat))
          (rowBody 1 (⟨3, 2, [(1:ℝ), 0, 1, 0, 0, 1]⟩ : Mat)))
        (rowBody 0 (⟨1, 2, [(1:ℝ), 0]⟩ : Mat)))) ≤ tol := by
    have hsub2 : subBody (clone (rowBody 1 (⟨3, 2, [(1:ℝ), 0, 1, 0, 0, 1]⟩ : Mat)))
        (smul (dotBody (rowBody 0 (⟨1, 2, [(1:ℝ), 0]⟩ : Mat))
            (rowBody 1 (⟨3, 2, [(1:ℝ), 0, 1, 0, 0, 1]⟩ : Mat)))
          (rowBody 0 (⟨1, 2, [(1:ℝ), 0]⟩ : Mat))) = ⟨1, 2, [(0:ℝ), 0]⟩ := by
      norm_num [subBody, sumBody, build, ent, smul, dotBody, rowBody, clone,
        Finset.sum_range_succ, List.range_succ]
    rw [hsub2]
    norm_num [norm, ent, Finset.sum_range_succ, Real.sqrt_zero, tol]
  have hinner : gsInner (rowBody 1 (⟨3, 2, [(1:ℝ), 0, 1, 0, 0, 1]⟩ : Mat))
      (⟨1, 2, [(1:ℝ), 0]⟩ : Mat) (Mat.rows ⟨1, 2, [(1:ℝ), 0]⟩) 0
      (clone (rowBody 1 (⟨3, 2, [(1:ℝ), 0, 1, 0, 0, 1]⟩ : Mat))) = none := by
    show gsInner _ _ 1 0 _ = none
    rw [gsInner_succ, if_pos hcheck]
  rw [hstep1, hacc, gsOuter_succ, hinner]

/-- C2 counterexample: the claim fails for every matrix only because of
dependent columns.  For A = [[1,1,0],[0,0,1]] (second column equal to the
first), qr returns Q = [[1],[0]], R = [[1,1,0]] and multiply(Q,R) =
[[1,1,0],[0,0,0]], whose (1,2) entry is 0 while A's is 1 — off by 1, far
beyond the 1e-9 tolerance. -/
theorem C2_qr_decomposition_counterexample :
    WF (⟨2, 3, [(1:ℝ), 1, 0, 0, 0, 1]⟩ : Mat) ∧
      qr ⟨2, 3, [(1:ℝ), 1, 0, 0, 0, 1]⟩ =
        Except.ok (⟨2, 1, [(1:ℝ), 0]⟩, ⟨1, 3, [(1:ℝ), 1, 0]⟩) ∧
      mul (⟨2, 1, [(1:ℝ), 0]⟩ : Mat) ⟨1, 3, [(1:ℝ), 1, 0]⟩ =
        Except.ok (⟨2, 3, [(1:ℝ), 1, 0, 0, 0, 0]⟩ : Mat) ∧
      ent (⟨2, 3, [(1:ℝ), 1, 0, 0, 0, 0]⟩ : Mat) 1 2 = 0 ∧
      ent (⟨2, 3, [(1:ℝ), 1, 0, 0, 0, 1]⟩ : Mat) 1 2 = 1 ∧
      ¬ |ent (⟨2, 3, [(1:ℝ), 1, 0, 0, 0, 0]⟩ : Mat) 1 2 -
          ent (⟨2, 3, [(1:ℝ), 1, 0, 0, 0, 1]⟩ : Mat) 1 2| ≤ 1 / 10 ^ 9 := by
  have htr : tr (⟨2, 3, [(1:ℝ), 1, 0, 0, 0, 1]⟩ : Mat) =
      ⟨3, 2, [(1:ℝ), 0, 1, 0, 0, 1]⟩ := rfl
  have hqr2 : qr (⟨2, 3, [(1:ℝ), 1, 0, 0, 0, 1]⟩ : Mat) =
      Except.ok (⟨2, 1, [(1:ℝ), 0]⟩, ⟨1, 3, [(1:ℝ), 1, 0]⟩) := by
    rw [qr_def, htr, gramSchmidt_dep_example]
    have htt : tr (tr (⟨1, 2, [(1:ℝ), 0]⟩ : Mat)) = ⟨1, 2, [(1:ℝ), 0]⟩ := rfl
    rw [htt, mul, if_neg (fun h => h rfl)]
    have hmb : mulBody (⟨1, 2, [(1:ℝ), 0]⟩ : Mat) ⟨2, 3, [(1:ℝ), 1, 0, 0, 0, 1]⟩ =
        ⟨1, 3, [(1:ℝ), 1, 0]⟩ := by
      norm_num [mulBody, build, ent, Finset.sum_range_succ, List.range_succ]
    rw [hmb]
    rfl
  have hmulQR : mul (⟨2, 1, [(1:ℝ), 0]⟩ : Mat) ⟨1, 3, [(1:ℝ), 1, 0]⟩ =
      Except.ok (⟨2, 3, [(1:ℝ), 1, 0, 0, 0, 0]⟩ : Mat) := by
    rw [mul, if_neg (fun h => h rfl)]
    congr 1
    norm_num [mulBody, build, ent, Finset.sum_range_succ, List.range_succ]
  refine ⟨rfl, hqr2, hmulQR, rfl, rfl, ?_⟩
  have h1 : ent (⟨2, 3, [(1:ℝ), 1, 0, 0, 0, 0]⟩ : Mat) 1 2 = 0 := rfl
  have h2 : ent (⟨2, 3, [(1:ℝ), 1, 0, 0, 0, 1]⟩ : Mat) 1 2 = 1 := rfl
  rw [h1, h2]
  norm_num

/-- C2 witness: the 1 x 1 matrix [[2]], via the theorem. -/
theorem C2_qr_decomposition_witness :
    WF (⟨1, 1, [(2:ℝ)]⟩ : Mat) ∧ avec (tr ⟨1, 1, [(2:ℝ)]⟩) 0 ≠ 0 ∧
      (gramSchmidt (tr ⟨1, 1, [(2:ℝ)]⟩)).rows = (⟨1, 1, [(2:ℝ)]⟩ : Mat).cols ∧
      (∃ Q R, qr ⟨1, 1, [(2:ℝ)]⟩ = Except.ok (Q, R) ∧
        mul Q R = Except.ok (⟨1, 1, [(2:ℝ)]⟩ : Mat) ∧
        (∀ i j, i < Q.cols → j < Q.cols →
          ∑ k ∈ Finset.range Q.rows, ent Q k i * ent Q k j = if i = j then 1 else 0) ∧
        (∀ i j, j < i → i < R.rows → ent R i j = 0)) := by
  have h0 : avec (tr ⟨1, 1, [(2:ℝ)]⟩) 0 ≠ 0 := by
    intro h
    have h2 : avec (tr (⟨1, 1, [(2:ℝ)]⟩ : Mat)) 0 0 = 2 := rfl
    rw [h] at h2
    norm_num at h2
  have hcomp : (gramSchmidt (tr ⟨1, 1, [(2:ℝ)]⟩)).rows = (⟨1, 1, [(2:ℝ)]⟩ : Mat).cols := rfl
  exact ⟨rfl, h0, hcomp, C2_qr_decomposition ⟨1, 1, [(2:ℝ)]⟩ rfl h0 hcomp⟩

/-! ### Claim C1: solve on square full-rank systems -/

theorem toMM_ent {m n : Nat} (A : Mat) (i : Fin m) (j : Fin n) :
    toMM m n A i j = ent A i.1 j.1 := rfl

/-- The mulBody of compatible matrices is matrix multiplication of the
Mathlib views. -/
theorem toMM_mulBody {m n p : Nat} {A B : Mat} (hAr : A.rows = m) (hAc : A.cols = n)
    (_hBr : B.rows = n) (hBc : B.cols = p) :
    toMM m p (mulBody A B) = toMM m n A * toMM n p B := by
  ext i j
  rw [Matrix.mul_apply, toMM_ent]
  rw [ent_mulBody (by rw [hAr]; exact i.2) (by rw [hBc]; exact j.2)]
  rw [show Finset.range A.cols = Finset.range n by rw [hAc]]
  rw [← Fin.sum_univ_eq_sum_range (fun k => ent A i.1 k * ent B k j.1) n]
  rfl

theorem solve_ok {A b Q R c : Mat} (h1 : qr A = Except.ok (Q, R))
    (h2 : mul (tr Q) b = Except.ok c) :
    solve A b = Except.ok (backSubstitution R c) := by
  unfold solve
  rw [h1]
  show (mul (tr Q) b).bind _ = _
  rw [h2]
  rfl

/-- The facts delivered by a completed Gram-Schmidt run inside qr: the pair
qr returns, the shapes, the orthonormality and span structure of G's rows
(A's orthonormalized columns), the positivity of the diagonal projections,
and the entry formula for R. -/
theorem qr_facts (A : Mat) (_hA : WF A) (h0 : avec (tr A) 0 ≠ 0)
    (hcomp : (gramSchmidt (tr A)).rows = A.cols) :
    qr A = Except.ok (tr (gramSchmidt (tr A)),
      mulBody (tr (tr (gramSchmidt (tr A)))) A) ∧
    tr (tr (gramSchmidt (tr A))) = gramSchmidt (tr A) ∧
    (gramSchmidt (tr A)).cols = A.rows ∧
    (∀ j k, j < A.cols → k < A.cols →
      dotf A.rows (avec (gramSchmidt (tr A)) j) (avec (gramSchmidt (tr A)) k) =
        if j = k then 1 else 0) ∧
    (∀ j, j < A.cols → avec (tr A) j ∈ spanUpTo (avec (gramSchmidt (tr A))) (j + 1)) ∧
    (∀ j, j < A.cols → 0 < dotf A.rows (avec (gramSchmidt (tr A)) j) (avec (tr A) j)) ∧
    (∀ i j, i < A.cols → j < A.cols →
      ent (mulBody (gramSchmidt (tr A)) A) i j =
        dotf A.rows (avec (gramSchmidt (tr A)) i) (avec (tr A) j)) ∧
    (∀ i k, i < A.cols → k < A.rows →
      avec (gramSchmidt (tr A)) i k = ent (gramSchmidt (tr A)) i k) ∧
    (∀ j k, j < A.cols → k < A.rows → avec (tr A) j k = ent A k j) := by
  have hWB : WF (tr A) := WF_tr A
  obtain ⟨hGr, hGWF, _, hGc, honb0, hspan0, hpos0⟩ :=
    gramSchmidt_complete_inv (tr A) hWB h0 hcomp
  have hn : 0 < A.cols := by
    by_contra hcn
    push_neg at hcn
    apply h0
    funext k
    show vecf (rowBody 0 (tr A)) k = 0
    rw [vecf_rowBody]
    by_cases hk : k < (tr A).cols
    · rw [if_pos hk]
      refine List.getD_eq_default _ _ ?_
      have hlen : (tr A).data.length = A.cols * A.rows := by
        have h := WF_tr A
        rw [WF] at h
        exact h
      have hc0 : A.cols = 0 := by omega
      rw [hlen, hc0, Nat.zero_mul]
      omega
    · rw [if_neg hk]
  have hGcols : (gramSchmidt (tr A)).cols = A.rows := hGc (show 0 < A.cols from hn)
  have honb : ∀ j k, j < A.cols → k < A.cols →
      dotf A.rows (avec (gramSchmidt (tr A)) j) (avec (gramSchmidt (tr A)) k) =
        if j = k then 1 else 0 := honb0
  have hent_g : ∀ i k, i < A.cols → k < A.rows →
      avec (gramSchmidt (tr A)) i k = ent (gramSchmidt (tr A)) i k := by
    intro i k _ hk
    rw [avec_def, vecf_rowBody, if_pos (by rw [hGcols]; exact hk)]
  have hent_a : ∀ j k, j < A.cols → k < A.rows → avec (tr A) j k = ent A k j := by
    intro j k hj hk
    rw [avec_def, vecf_rowBody, if_pos (show k < (tr A).cols from hk)]
    exact ent_tr (A := A) hj hk
  have hQdef : tr (tr (gramSchmidt (tr A))) = gramSchmidt (tr A) := tr_tr_eq hGWF
  have hguard : ¬ ((tr (tr (gramSchmidt (tr A)))).cols ≠ A.rows) := by
    rw [hQdef, hGcols]
    exact fun h => h rfl
  have hqr : qr A = Except.ok (tr (gramSchmidt (tr A)),
      mulBody (tr (tr (gramSchmidt (tr A)))) A) := by
    rw [qr_def, mul, if_neg hguard]
    rfl
  have hRent : ∀ i j, i < A.cols → j < A.cols →
      ent (mulBody (gramSchmidt (tr A)) A) i j =
        dotf A.rows (avec (gramSchmidt (tr A)) i) (avec (tr A) j) := by
    intro i j hi hj
    rw [ent_mulBody (by rw [hcomp]; exact hi) hj,
      show Finset.range (gramSchmidt (tr A)).cols = Finset.range A.rows by rw [hGcols]]
    unfold dotf
    refine Finset.sum_congr rfl fun k hk => ?_
    rw [hent_g i k hi (Finset.mem_range.1 hk), hent_a j k hj (Finset.mem_range.1 hk)]
  exact ⟨hqr, hQdef, hGcols, honb, hspan0, hpos0, hRent, hent_g, hent_a⟩

/-- C1 (amended): for every well-formed square A with linearly independent
columns WHOSE GRAM-SCHMIDT RUN COMPLETES (no residual of norm at most 1e-10,
the check the spec tells callers to make) and every well-formed column vector
b with b.rows = A.rows, solve(A, b) succeeds and multiply(A, solve(A, b))
succeeds and equals b exactly over the exact-real embedding. -/
theorem C1_solve_square_exact (A b : Mat) (hA : WF A) (hsq : A.rows = A.cols)
    (hLI : LinearIndependent ℝ fun j : Fin A.cols => avec (tr A) j)
    (hcomp : (gramSchmidt (tr A)).rows = A.cols)
    (hb : WF b) (hbr : b.rows = A.rows) (hbc : b.cols = 1) :
    ∃ x, solve A b = Except.ok x ∧ mul A x = Except.ok b := by
  rcases Nat.eq_zero_or_pos A.cols with hn0 | hn
  · have hAe : A = (⟨0, 0, []⟩ : Mat) := by
      obtain ⟨ar, ac, ad⟩ := A
      simp only at hsq hn0 ⊢
      subst hn0
      subst hsq
      rw [WF] at hA
      simp only at hA
      rw [Nat.mul_zero, List.length_eq_zero] at hA
      rw [hA]
    have hbe : b = (⟨0, 1, []⟩ : Mat) := by
      obtain ⟨br, bc, bd⟩ := b
      simp only at hbr hbc ⊢
      rw [hAe] at hbr
      simp only at hbr
      subst hbr
      subst hbc
      rw [WF] at hb
      simp only at hb
      rw [Nat.zero_mul, List.length_eq_zero] at hb
      rw [hb]
    refine ⟨⟨0, 1, []⟩, ?_, ?_⟩
    · rw [hAe, hbe]
      rfl
    · rw [hAe, hbe]
      rfl
  · have h0 : avec (tr A) 0 ≠ 0 := by
      have := hLI.ne_zero ⟨0, hn⟩
      simpa using this
    obtain ⟨hqr, hQdef, hGcols, honb, hspan, hpos, hRent, hent_g, hent_a⟩ :=
      qr_facts A hA h0 hcomp
    have hcguard : ¬ ((tr (tr (gramSchmidt (tr A)))).cols ≠ b.rows) := by
      rw [hQdef, hGcols, hbr]
      exact fun h => h rfl
    have hc : mul (tr (tr (gramSchmidt (tr A)))) b =
        Except.ok (mulBody (tr (tr (gramSchmidt (tr A)))) b) := by
      rw [mul, if_neg hcguard]
    have hsolve := solve_ok hqr hc
    rw [hQdef] at hsolve
    have hRrows : (mulBody (gramSchmidt (tr A)) A).rows = A.cols := by
      rw [rows_mulBody, hcomp]
    have hRcols : (mulBody (gramSchmidt (tr A)) A).cols = A.cols := by
      rw [cols_mulBody]
    have hUT : ∀ i j, i < (mulBody (gramSchmidt (tr A)) A).rows → j < i →
        ent (mulBody (gramSchmidt (tr A)) A) i j = 0 := by
      intro i j hi hj
      have hiA : i < A.cols := by rw [← hRrows]; exact hi
      rw [hRent i j hiA (by omega)]
      have hw : ∀ k, k < j + 1 →
          dotf A.rows (avec (gramSchmidt (tr A)) i) (avec (gramSchmidt (tr A)) k) = 0 := by
        intro k hk
        rw [honb i k hiA (by omega), if_neg (by omega)]
      exact dotf_eq_zero_of_mem_span hw (hspan j (by omega))
    have hdiag : ∀ i, i < (mulBody (gramSchmidt (tr A)) A).rows →
        ent (mulBody (gramSchmidt (tr A)) A) i i ≠ 0 := by
      intro i hi
      have hiA : i < A.cols := by rw [← hRrows]; exact hi
      rw [hRent i i hiA hiA]
      exact ne_of_gt (hpos i hiA)
    have hsq' : (mulBody (gramSchmidt (tr A)) A).cols =
        (mulBody (gramSchmidt (tr A)) A).rows := by rw [hRrows, hRcols]
    have hcrows : (mulBody (gramSchmidt (tr A)) b).rows =
        (mulBody (gramSchmidt (tr A)) A).rows := by
      rw [rows_mulBody, rows_mulBody]
    have hccols : (mulBody (gramSchmidt (tr A)) b).cols = 1 := by
      rw [cols_mulBody, hbc]
    have hβ : mulBody (mulBody (gramSchmidt (tr A)) A)
        (backSubstitution (mulBody (gramSchmidt (tr A)) A)
          (mulBody (gramSchmidt (tr A)) b)) = mulBody (gramSchmidt (tr A)) b :=
      mulBody_backSubstitution _ _ hsq' hUT hdiag hcrows hccols (WF_mulBody _ _)
    have hxrows : (backSubstitution (mulBody (gramSchmidt (tr A)) A)
        (mulBody (gramSchmidt (tr A)) b)).rows = A.cols := by
      rw [rows_backSubstitution, hRrows]
    have hGcols' : (gramSchmidt (tr A)).cols = A.cols := by rw [hGcols, hsq]
    have hbridge1 : toMM A.cols 1 (mulBody (mulBody (gramSchmidt (tr A)) A)
        (backSubstitution (mulBody (gramSchmidt (tr A)) A)
          (mulBody (gramSchmidt (tr A)) b))) =
        toMM A.cols A.cols (mulBody (gramSchmidt (tr A)) A) *
          toMM A.cols 1 (backSubstitution (mulBody (gramSchmidt (tr A)) A)
            (mulBody (gramSchmidt (tr A)) b)) :=
      toMM_mulBody hRrows hRcols hxrows rfl
    have hbridge2 : toMM A.cols A.cols (mulBody (gramSchmidt (tr A)) A) =
        toMM A.cols A.cols (gramSchmidt (tr A)) * toMM A.cols A.cols A :=
      toMM_mulBody hcomp hGcols' hsq rfl
    have hbridge3 : toMM A.cols 1 (mulBody (gramSchmidt (tr A)) b) =
        toMM A.cols A.cols (gramSchmidt (tr A)) * toMM A.cols 1 b :=
      toMM_mulBody hcomp hGcols' (by rw [hbr, hsq]) hbc
    have hMG : toMM A.cols A.cols (gramSchmidt (tr A)) *
        (toMM A.cols A.cols (gramSchmidt (tr A))).transpose = 1 := by
      ext i j
      rw [Matrix.mul_apply, Matrix.one_apply]
      have hterm : ∀ k : Fin A.cols, toMM A.cols A.cols (gramSchmidt (tr A)) i k *
          (toMM A.cols A.cols (gramSchmidt (tr A))).transpose k j =
          avec (gramSchmidt (tr A)) i.1 k.1 * avec (gramSchmidt (tr A)) j.1 k.1 := by
        intro k
        rw [Matrix.transpose_apply, toMM_ent, toMM_ent,
          ← hent_g i.1 k.1 i.2 (by rw [hsq]; exact k.2),
          ← hent_g j.1 k.1 j.2 (by rw [hsq]; exact k.2)]
      rw [Finset.sum_congr rfl fun k _ => hterm k]
      have hrange : ∑ k : Fin A.cols,
          avec (gramSchmidt (tr A)) i.1 k.1 * avec (gramSchmidt (tr A)) j.1 k.1 =
          dotf A.rows (avec (gramSchmidt (tr A)) i.1) (avec (gramSchmidt (tr A)) j.1) := by
        rw [Fin.sum_univ_eq_sum_range
          (fun k => avec (gramSchmidt (tr A)) i.1 k * avec (gramSchmidt (tr A)) j.1 k)
          A.cols]
        unfold dotf
        rw [show Finset.range A.rows = Finset.range A.cols by rw [hsq]]
      rw [hrange, honb i.1 j.1 i.2 j.2]
      by_cases hij : i = j
      · subst hij
        rw [if_pos rfl, if_pos rfl]
      · rw [if_neg (fun h => hij (Fin.ext h)), if_neg hij]
    have hMGc : (toMM A.cols A.cols (gramSchmidt (tr A))).transpose *
        toMM A.cols A.cols (gramSchmidt (tr A)) = 1 := Matrix.mul_eq_one_comm.1 hMG
    have hlift : (toMM A.cols A.cols (gramSchmidt (tr A)) * toMM A.cols A.cols A) *
        toMM A.cols 1 (backSubstitution (mulBody (gramSchmidt (tr A)) A)
          (mulBody (gramSchmidt (tr A)) b)) =
        toMM A.cols A.cols (gramSchmidt (tr A)) * toMM A.cols 1 b := by
      rw [← hbridge2, ← hbridge1, hβ, hbridge3]
    have hfinal : toMM A.cols A.cols A *
        toMM A.cols 1 (backSubstitution (mulBody (gramSchmidt (tr A)) A)
          (mulBody (gramSchmidt (tr A)) b)) = toMM A.cols 1 b := by
      have hstep : (toMM A.cols A.cols (gramSchmidt (tr A))).transpose *
          ((toMM A.cols A.cols (gramSchmidt (tr A)) * toMM A.cols A.cols A) *
            toMM A.cols 1 (backSubstitution (mulBody (gramSchmidt (tr A)) A)
              (mulBody (gramSchmidt (tr A)) b))) =
          (toMM A.cols A.cols (gramSchmidt (tr A))).transpose *
            (toMM A.cols A.cols (gramSchmidt (tr A)) * toMM A.cols 1 b) := by
        rw [hlift]
      simp only [← Matrix.mul_assoc] at hstep
      rw [hMGc, Matrix.one_mul, Matrix.one_mul] at hstep
      exact hstep
    have hmulAx : mulBody A (backSubstitution (mulBody (gramSchmidt (tr A)) A)
        (mulBody (gramSchmidt (tr A)) b)) = b := by
      refine Mat_ext (WF_mulBody _ _) hb ?_ ?_ ?_
      · rw [rows_mulBody, hbr]
      · rw [cols_mulBody, cols_backSubstitution, hbc]
      · intro k j hk hj
        have hkr : k < A.rows := by rw [rows_mulBody] at hk; exact hk
        have hj1 : j < 1 := by
          rw [cols_mulBody, cols_backSubstitution] at hj
          exact hj
        have hbridge4 : toMM A.cols 1 (mulBody A (backSubstitution
            (mulBody (gramSchmidt (tr A)) A) (mulBody (gramSchmidt (tr A)) b))) =
            toMM A.cols A.cols A * toMM A.cols 1 (backSubstitution
              (mulBody (gramSchmidt (tr A)) A) (mulBody (gramSchmidt (tr A)) b)) :=
          toMM_mulBody hsq rfl hxrows rfl
        have hk' : k < A.cols := by rw [← hsq]; exact hkr
        exact congrFun (congrFun (hbridge4.trans hfinal) ⟨k, hk'⟩) ⟨j, hj1⟩
    refine ⟨backSubstitution (mulBody (gramSchmidt (tr A)) A)
      (mulBody (gramSchmidt (tr A)) b), hsolve, ?_⟩
    rw [mul, if_neg (show ¬ (A.cols ≠ (backSubstitution (mulBody (gramSchmidt (tr A)) A)
      (mulBody (gramSchmidt (tr A)) b)).rows) from fun h => h hxrows.symm), hmulAx]

/-- Concrete evaluation: Gram-Schmidt on the linearly independent rows (1,0),
(0,1e-11) stops at the second row: its residual (0,1e-11) is nonzero but of
norm 1e-11, at most the 1e-10 tolerance, so the dependency return fires and
only the single orthonormal row (1,0) comes back. -/
theorem gramSchmidt_eps_example :
    gramSchmidt (⟨2, 2, [(1:ℝ), 0, 0, 1/10^11]⟩ : Mat) = ⟨1, 2, [(1:ℝ), 0]⟩ := by
  have hn1 : norm (⟨1, 2, [(1 : ℝ), 0]⟩ : Mat) = 1 := by
    norm_num [norm, ent, Finset.sum_range_succ, Real.sqrt_one]
  have hstep1 : gramSchmidt (⟨2, 2, [(1:ℝ), 0, 0, 1/10^11]⟩ : Mat) =
      gsOuter (⟨2, 2, [(1:ℝ), 0, 0, 1/10^11]⟩ : Mat) 1 1
        (appendRow makeEmptyMatrix
          (smul (1 / norm (clone (rowBody 0 (⟨2, 2, [(1:ℝ), 0, 0, 1/10^11]⟩ : Mat))))
            (clone (rowBody 0 (⟨2, 2, [(1:ℝ), 0, 0, 1/10^11]⟩ : Mat))))) := by
    rw [gramSchmidt]
    show gsOuter _ 2 0 makeEmptyMatrix = _
    rw [gsOuter_succ]
    rfl
  have hacc : appendRow makeEmptyMatrix
      (smul (1 / norm (clone (rowBody 0 (⟨2, 2, [(1:ℝ), 0, 0, 1/10^11]⟩ : Mat))))
        (clone (rowBody 0 (⟨2, 2, [(1:ℝ), 0, 0, 1/10^11]⟩ : Mat)))) =
      ⟨1, 2, [(1:ℝ), 0]⟩ := by
    have h1 : clone (rowBody 0 (⟨2, 2, [(1:ℝ), 0, 0, 1/10^11]⟩ : Mat)) =
        (⟨1, 2, [(1:ℝ), 0]⟩ : Mat) := rfl
    rw [h1, hn1]
    have hsm : smul ((1:ℝ) / 1) (⟨1, 2, [(1:ℝ), 0]⟩ : Mat) = ⟨1, 2, [(1:ℝ), 0]⟩ := by
      norm_num [smul]
    rw [hsm]
    rfl
  have hsub2 : subBody (clone (rowBody 1 (⟨2, 2, [(1:ℝ), 0, 0, 1/10^11]⟩ : Mat)))
      (smul (dotBody (rowBody 0 (⟨1, 2, [(1:ℝ), 0]⟩ : Mat))
          (rowBody 1 (⟨2, 2, [(1:ℝ), 0, 0, 1/10^11]⟩ : Mat)))
        (rowBody 0 (⟨1, 2, [(1:ℝ), 0]⟩ : Mat))) = ⟨1, 2, [(0:ℝ), 1/10^11]⟩ := by
    norm_num [subBody, sumBody, build, ent, smul, dotBody, rowBody, clone,
      Finset.sum_range_succ, List.range_succ]
  have hcheckval : norm (⟨1, 2, [(0:ℝ), 1/10^11]⟩ : Mat) ≤ tol := by
    have h2 : Real.sqrt (tol ^ 2) = tol := Real.sqrt_sq (by rw [tol]; norm_num)
    rw [← h2, norm]
    apply Real.sqrt_le_sqrt
    norm_num [ent, tol, Finset.sum_range_succ]
  have hcheck : norm (subBody (clone (rowBody 1 (⟨2, 2, [(1:ℝ), 0, 0, 1/10^11]⟩ : Mat)))
      (smul (dotBody (rowBody 0 (⟨1, 2, [(1:ℝ), 0]⟩ : Mat))
          (rowBody 1 (⟨2, 2, [(1:ℝ), 0, 0, 1/10^11]⟩ : Mat)))
        (rowBody 0 (⟨1, 2, [(1:ℝ), 0]⟩ : Mat)))) ≤ tol := by
    rw [hsub2]
    exact hcheckval
  have hinner : gsInner (rowBody 1 (⟨2, 2, [(1:ℝ), 0, 0, 1/10^11]⟩ : Mat))
      (⟨1, 2, [(1:ℝ), 0]⟩ : Mat) (Mat.rows ⟨1, 2, [(1:ℝ), 0]⟩) 0
      (clone (rowBody 1 (⟨2, 2, [(1:ℝ), 0, 0, 1/10^11]⟩ : Mat))) = none := by
    show gsInner _ _ 1 0 _ = none
    rw [gsInner_succ, if_pos hcheck]
  rw [hstep1, hacc, gsOuter_succ, hinner]

/-- C1 counterexample: the diagonal matrix A = [[1, 0], [0, 1e-11]] is square
with linearly independent columns, yet for b = [1, 1] Gram-Schmidt inside qr
bails out on the second column (residual norm 1e-11, at most the 1e-10
tolerance), R ends up 1 x 2, back substitution returns a 1-entry vector, and
multiply(A, solve(A, b)) fails its shape guard instead of returning b — there
is no solution returned at all in the claimed sense. -/
theorem C1_solve_square_exact_counterexample :
    WF (⟨2, 2, [(1:ℝ), 0, 0, 1/10^11]⟩ : Mat) ∧
    (⟨2, 2, [(1:ℝ), 0, 0, 1/10^11]⟩ : Mat).rows =
      (⟨2, 2, [(1:ℝ), 0, 0, 1/10^11]⟩ : Mat).cols ∧
    LinearIndependent ℝ (fun j : Fin (⟨2, 2, [(1:ℝ), 0, 0, 1/10^11]⟩ : Mat).cols =>
      avec (tr ⟨2, 2, [(1:ℝ), 0, 0, 1/10^11]⟩) j) ∧
    WF (⟨2, 1, [(1:ℝ), 1]⟩ : Mat) ∧
    (⟨2, 1, [(1:ℝ), 1]⟩ : Mat).rows = (⟨2, 2, [(1:ℝ), 0, 0, 1/10^11]⟩ : Mat).rows ∧
    (⟨2, 1, [(1:ℝ), 1]⟩ : Mat).cols = 1 ∧
    ¬ ∃ x, solve ⟨2, 2, [(1:ℝ), 0, 0, 1/10^11]⟩ ⟨2, 1, [(1:ℝ), 1]⟩ = Except.ok x ∧
        mul ⟨2, 2, [(1:ℝ), 0, 0, 1/10^11]⟩ x = Except.ok (⟨2, 1, [(1:ℝ), 1]⟩ : Mat) := by
  have hLI : LinearIndependent ℝ (fun j : Fin 2 =>
      avec (tr (⟨2, 2, [(1:ℝ), 0, 0, 1/10^11]⟩ : Mat)) j.1) := by
    refine Fintype.linearIndependent_iff.2 ?_
    intro g hg i
    have h0 := congrFun hg 0
    have h1 := congrFun hg 1
    rw [Finset.sum_apply, Fin.sum_univ_two] at h0 h1
    simp only [Pi.smul_apply, smul_eq_mul, Pi.zero_apply, Fin.val_zero, Fin.val_one]
      at h0 h1
    have e00 : avec (tr (⟨2, 2, [(1:ℝ), 0, 0, 1/10^11]⟩ : Mat)) 0 0 = 1 := rfl
    have e01 : avec (tr (⟨2, 2, [(1:ℝ), 0, 0, 1/10^11]⟩ : Mat)) 1 0 = 0 := rfl
    have e10 : avec (tr (⟨2, 2, [(1:ℝ), 0, 0, 1/10^11]⟩ : Mat)) 0 1 = 0 := rfl
    have e11 : avec (tr (⟨2, 2, [(1:ℝ), 0, 0, 1/10^11]⟩ : Mat)) 1 1 = 1/10^11 := rfl
    rw [e00, e01] at h0
    rw [e10, e11] at h1
    norm_num at h0 h1
    fin_cases i
    · exact h0
    · exact h1
  have hqr1 : qr (⟨2, 2, [(1:ℝ), 0, 0, 1/10^11]⟩ : Mat) =
      Except.ok (⟨2, 1, [(1:ℝ), 0]⟩, ⟨1, 2, [(1:ℝ), 0]⟩) := by
    have htr : tr (⟨2, 2, [(1:ℝ), 0, 0, 1/10^11]⟩ : Mat) =
        ⟨2, 2, [(1:ℝ), 0, 0, 1/10^11]⟩ := rfl
    rw [qr_def, htr, gramSchmidt_eps_example]
    have htt : tr (tr (⟨1, 2, [(1:ℝ), 0]⟩ : Mat)) = ⟨1, 2, [(1:ℝ), 0]⟩ := rfl
    rw [htt, mul, if_neg (fun h => h rfl)]
    have hmb : mulBody (⟨1, 2, [(1:ℝ), 0]⟩ : Mat) ⟨2, 2, [(1:ℝ), 0, 0, 1/10^11]⟩ =
        ⟨1, 2, [(1:ℝ), 0]⟩ := by
      norm_num [mulBody, build, ent, Finset.sum_range_succ, List.range_succ]
    rw [hmb]
    rfl
  have hc1 : mul (tr (⟨2, 1, [(1:ℝ), 0]⟩ : Mat)) ⟨2, 1, [(1:ℝ), 1]⟩ =
      Except.ok (⟨1, 1, [(1:ℝ)]⟩ : Mat) := by
    have htq : tr (⟨2, 1, [(1:ℝ), 0]⟩ : Mat) = ⟨1, 2, [(1:ℝ), 0]⟩ := rfl
    rw [htq, mul, if_neg (fun h => h rfl)]
    congr 1
    norm_num [mulBody, build, ent, Finset.sum_range_succ, List.range_succ]
  refine ⟨rfl, rfl, hLI, rfl, rfl, rfl, ?_⟩
  rintro ⟨x, hs, hm⟩
  have hsolve2 : solve (⟨2, 2, [(1:ℝ), 0, 0, 1/10^11]⟩ : Mat) ⟨2, 1, [(1:ℝ), 1]⟩ =
      Except.ok (backSubstitution ⟨1, 2, [(1:ℝ), 0]⟩ ⟨1, 1, [(1:ℝ)]⟩) :=
    solve_ok hqr1 hc1
  rw [hsolve2] at hs
  injection hs with hx
  rw [← hx] at hm
  rw [mul, if_pos (show (⟨2, 2, [(1:ℝ), 0, 0, 1/10^11]⟩ : Mat).cols ≠
    (backSubstitution ⟨1, 2, [(1:ℝ), 0]⟩ ⟨1, 1, [(1:ℝ)]⟩).rows from fun h =>
      Nat.noConfusion (Nat.succ.inj h))] at hm
  exact Except.noConfusion hm

/-- C1 witness: the 1 x 1 system 3 x = 6, via the theorem. -/
theorem C1_solve_square_exact_witness :
    WF (⟨1, 1, [(3:ℝ)]⟩ : Mat) ∧
    (⟨1, 1, [(3:ℝ)]⟩ : Mat).rows = (⟨1, 1, [(3:ℝ)]⟩ : Mat).cols ∧
    LinearIndependent ℝ (fun j : Fin (⟨1, 1, [(3:ℝ)]⟩ : Mat).cols =>
      avec (tr ⟨1, 1, [(3:ℝ)]⟩) j) ∧
    (gramSchmidt (tr ⟨1, 1, [(3:ℝ)]⟩)).rows = (⟨1, 1, [(3:ℝ)]⟩ : Mat).cols ∧
    WF (⟨1, 1, [(6:ℝ)]⟩ : Mat) ∧
    (∃ x, solve ⟨1, 1, [(3:ℝ)]⟩ ⟨1, 1, [(6:ℝ)]⟩ = Except.ok x ∧
      mul ⟨1, 1, [(3:ℝ)]⟩ x = Except.ok (⟨1, 1, [(6:ℝ)]⟩ : Mat)) := by
  have hLI : LinearIndependent ℝ (fun j : Fin (⟨1, 1, [(3:ℝ)]⟩ : Mat).cols =>
      avec (tr ⟨1, 1, [(3:ℝ)]⟩) j) := by
    apply linearIndependent_unique
    intro h
    have h2 := congrFun h 0
    have h3 : avec (tr (⟨1, 1, [(3:ℝ)]⟩ : Mat))
        (↑(default : Fin (⟨1, 1, [(3:ℝ)]⟩ : Mat).cols)) 0 = 3 := rfl
    rw [h3] at h2
    norm_num at h2
  exact ⟨rfl, rfl, hLI, rfl, rfl,
    C1_solve_square_exact ⟨1, 1, [(3:ℝ)]⟩ ⟨1, 1, [(6:ℝ)]⟩ rfl rfl hLI rfl rfl rfl rfl⟩

/-! ### Claim C10: a zero first row in the junk model -/

theorem jgsInner_zero (ai Q : JMat) (j : Nat) (q : JMat) :
    jgsInner ai Q 0 j q = some q := rfl

theorem jgsInner_succ (ai Q : JMat) (fuel j : Nat) (q : JMat) :
    jgsInner ai Q (fuel + 1) j q =
      if jleb (jnorm (jsubBody q (jsmul (jdotBody (jrowBody j Q) ai) (jrowBody j Q))))
          tol then
        none
      else jgsInner ai Q fuel (j + 1)
        (jsubBody q (jsmul (jdotBody (jrowBody j Q) ai) (jrowBody j Q))) := rfl

theorem jgsOuter_zero (A : JMat) (i : Nat) (Q : JMat) : jgsOuter A 0 i Q = Q := rfl

theorem jgsOuter_succ (A : JMat) (fuel i : Nat) (Q : JMat) :
    jgsOuter A (fuel + 1) i Q =
      match jgsInner (jrowBody i A) Q Q.rows 0 (jclone (jrowBody i A)) with
      | none => Q
      | some q => jgsOuter A fuel (i + 1)
          (jappendRow Q (jsmul (jdiv (some 1) (jnorm q)) q)) := rfl

theorem jadd_none_left : ∀ b : JNum, jadd none b = none
  | some _ => rfl
  | none => rfl

theorem jadd_none_right : ∀ a : JNum, jadd a none = none
  | some _ => rfl
  | none => rfl

theorem jmul_none_left : ∀ b : JNum, jmul none b = none
  | some _ => rfl
  | none => rfl

theorem jmul_none_right : ∀ a : JNum, jmul a none = none
  | some _ => rfl
  | none => rfl

theorem jdiv_none_right : ∀ a : JNum, jdiv a none = none
  | some _ => rfl
  | none => rfl

/-- A fold of jadd over an accumulator already poisoned stays poisoned. -/
theorem jfoldl_acc_none (g : Nat → JNum) :
    ∀ l : List Nat, l.foldl (fun a i => jadd a (g i)) none = none
  | [] => rfl
  | a :: t => by
    show List.foldl _ (jadd none (g a)) t = none
    rw [jadd_none_left]
    exact jfoldl_acc_none g t

/-- A fold of jadd over at least one non-finite term is non-finite. -/
theorem jfoldl_none (g : Nat → JNum) :
    ∀ l : List Nat, l ≠ [] → (∀ i ∈ l, g i = none) → ∀ acc : JNum,
      l.foldl (fun a i => jadd a (g i)) acc = none
  | [], hl, _, _ => absurd rfl hl
  | a :: t, _, hg, acc => by
    show List.foldl _ (jadd acc (g a)) t = none
    rw [hg a (List.mem_cons_self a t), jadd_none_right]
    exact jfoldl_acc_none g t

/-- A fold of jadd over finite zero terms returns its finite accumulator. -/
theorem jfoldl_zero (g : Nat → JNum) :
    ∀ l : List Nat, (∀ i ∈ l, g i = some 0) → ∀ x : ℝ,
      l.foldl (fun a i => jadd a (g i)) (some x) = some x
  | [], _, _ => rfl
  | a :: t, hg, x => by
    show List.foldl _ (jadd (some x) (g a)) t = some x
    rw [hg a (List.mem_cons_self a t)]
    show List.foldl _ (some (x + 0)) t = some x
    rw [add_zero]
    exact jfoldl_zero g t (fun i hi => hg i (List.mem_cons_of_mem a hi)) x

/-- Every element read of an all-non-finite matrix is non-finite (out of range
reads are undefined, non-finite as well). -/
theorem jent_none (A : JMat) (i j : Nat) (hall : ∀ a ∈ A.data, a = none) :
    jent A i j = none := by
  unfold jent
  by_cases h : i * A.cols + j < A.data.length
  · rw [List.getD_eq_getElem _ _ h]
    exact hall _ (List.getElem_mem h)
  · exact List.getD_eq_default _ _ (by omega)

/-- The dot product against an all-non-finite nonempty vector is non-finite. -/
theorem jdotBody_none (x y : JMat) (hlen : x.data.length ≠ 0)
    (hall : ∀ a ∈ x.data, a = none) : jdotBody x y = none := by
  unfold jdotBody
  have hg : ∀ i ∈ List.range x.data.length,
      jmul (x.data.getD i none) (y.data.getD i none) = none := by
    intro i hi
    have hx : x.data.getD i none = none := by
      rw [List.getD_eq_getElem _ _ (List.mem_range.1 hi)]
      exact hall _ (List.getElem_mem (List.mem_range.1 hi))
    rw [hx]
    exact jmul_none_left _
  exact jfoldl_none _ _ (by rwa [ne_eq, List.range_eq_nil]) hg (some 0)

/-- The norm of a one-row matrix holding a non-finite value is non-finite, so
the dependency test `norm(q) <= 1e-10` on it is false. -/
theorem jnorm_none (v : JMat) (hr : v.rows = 1) (hc : v.cols ≠ 0)
    (hall : ∀ a ∈ v.data, a = none) : jnorm v = none := by
  unfold jnorm
  rw [hr, show List.range 1 = [0] from rfl]
  simp only [List.foldl_cons, List.foldl_nil]
  have hg : ∀ j ∈ List.range v.cols, jmul (jent v 0 j) (jent v 0 j) = none := by
    intro j _
    rw [jent_none v 0 j hall]
    exact jmul_none_left _
  have hfold : (List.range v.cols).foldl
      (fun acc2 j => jadd acc2 (jmul (jent v 0 j) (jent v 0 j))) (some 0) = none :=
    jfoldl_none _ _ (by rwa [ne_eq, List.range_eq_nil]) hg (some 0)
  rw [hfold]
  rfl

/-- The norm of a one-row matrix of finite zeros is the finite zero (the
square root of an accumulated zero). -/
theorem jnorm_zero_row (v : JMat) (hr : v.rows = 1)
    (h : ∀ j, j < v.cols → jent v 0 j = some 0) : jnorm v = some 0 := by
  unfold jnorm
  rw [hr, show List.range 1 = [0] from rfl]
  simp only [List.foldl_cons, List.foldl_nil]
  have hg : ∀ j ∈ List.range v.cols, jmul (jent v 0 j) (jent v 0 j) = some 0 := by
    intro j hj
    rw [h j (List.mem_range.1 hj)]
    show some (0 * 0) = some 0
    rw [mul_zero]
  have hfold : (List.range v.cols).foldl
      (fun acc2 j => jadd acc2 (jmul (jent v 0 j) (jent v 0 j))) (some 0) = some 0 :=
    jfoldl_zero _ _ hg 0
  rw [hfold]
  show some (Real.sqrt 0) = some 0
  rw [Real.sqrt_zero]

/-- Subtracting anything from an all-non-finite vector leaves every entry
non-finite. -/
theorem jsubBody_all_none_left (q X : JMat) (hq : ∀ a ∈ q.data, a = none) :
    ∀ a ∈ (jsubBody q X).data, a = none := by
  intro a ha
  simp only [jsubBody, jsumBody, jbuild, List.mem_map, List.mem_range] at ha
  obtain ⟨p, _, hp⟩ := ha
  rw [← hp, jent_none q _ _ hq]
  exact jadd_none_left _

/-- Subtracting an all-non-finite vector from anything leaves every entry
non-finite. -/
theorem jsubBody_all_none_right (q X : JMat) (hX : ∀ a ∈ X.data, a = none) :
    ∀ a ∈ (jsubBody q X).data, a = none := by
  intro a ha
  simp only [jsubBody, jsumBody, jbuild, List.mem_map, List.mem_range] at ha
  obtain ⟨p, _, hp⟩ := ha
  have h1 : jent (jsmul (some (-1)) X) (p / q.cols) (p % q.cols) = none := by
    apply jent_none
    intro b hb
    simp only [jsmul, List.mem_map] at hb
    obtain ⟨c, hc, hbc⟩ := hb
    rw [← hbc, hX c hc]
    exact jmul_none_left _
  rw [← hp, h1]
  exact jadd_none_right _

/-- Once the working vector q is all-non-finite, the projection loop never
sees a norm at most the tolerance again (every later norm is NaN), so it runs
to completion and returns an all-non-finite vector of the same shape. -/
theorem jgsInner_pois (ai Q : JMat) :
    ∀ (fuel j : Nat) (q : JMat), q.rows = 1 → q.cols = Q.cols → Q.cols ≠ 0 →
      (∀ a ∈ q.data, a = none) →
      ∃ q', jgsInner ai Q fuel j q = some q' ∧ q'.rows = 1 ∧ q'.cols = Q.cols ∧
        ∀ a ∈ q'.data, a = none
  | 0, _, q, h1, h2, _, h4 => ⟨q, rfl, h1, h2, h4⟩
  | fuel + 1, j, q, h1, h2, h3, h4 => by
    rw [jgsInner_succ]
    have hq'all : ∀ a ∈ (jsubBody q
        (jsmul (jdotBody (jrowBody j Q) ai) (jrowBody j Q))).data, a = none :=
      jsubBody_all_none_left q _ h4
    have hnorm : jnorm (jsubBody q
        (jsmul (jdotBody (jrowBody j Q) ai) (jrowBody j Q))) = none :=
      jnorm_none _ h1 (show q.cols ≠ 0 from h2 ▸ h3) hq'all
    rw [hnorm, if_neg (by simp [jleb])]
    exact jgsInner_pois ai Q fuel (j + 1) _ h1 h2 h3 hq'all

/-- When row 0 of the accumulated Q is all-non-finite, the projection loop
poisons the working vector at its very first step and then runs to
completion: no early dependency return is possible any more. -/
theorem jgsInner_row0 (ai Q : JMat) (q : JMat) (hq1 : q.rows = 1)
    (hq2 : q.cols = Q.cols) (hc : Q.cols ≠ 0)
    (hr0 : ∀ a ∈ (jrowBody 0 Q).data, a = none)
    (hr0len : (jrowBody 0 Q).data.length ≠ 0) (fuel : Nat) :
    ∃ q', jgsInner ai Q (fuel + 1) 0 q = some q' ∧ q'.rows = 1 ∧ q'.cols = Q.cols ∧
      ∀ a ∈ q'.data, a = none := by
  rw [jgsInner_succ]
  have hd : jdotBody (jrowBody 0 Q) ai = none := jdotBody_none _ _ hr0len hr0
  have hX : ∀ a ∈ (jsmul (jdotBody (jrowBody 0 Q) ai) (jrowBody 0 Q)).data,
      a = none := by
    intro a ha
    simp only [jsmul, List.mem_map] at ha
    obtain ⟨c, _, hca⟩ := ha
    rw [← hca, hd]
    exact jmul_none_right _
  have hq'all : ∀ a ∈ (jsubBody q
      (jsmul (jdotBody (jrowBody 0 Q) ai) (jrowBody 0 Q))).data, a = none :=
    jsubBody_all_none_right q _ hX
  have hnorm : jnorm (jsubBody q
      (jsmul (jdotBody (jrowBody 0 Q) ai) (jrowBody 0 Q))) = none :=
    jnorm_none _ hq1 (show q.cols ≠ 0 from hq2 ▸ hc) hq'all
  rw [hnorm, if_neg (by simp [jleb])]
  exact jgsInner_pois ai Q fuel 1 _ hq1 hq2 hc hq'all

/-- The outer loop on an all-non-finite nonempty accumulator appends one
(all-non-finite) row per remaining input row: no early return ever fires. -/
theorem jgsOuter_pois (A : JMat) (hc : A.cols ≠ 0) :
    ∀ (fuel i : Nat) (Q : JMat), Q.cols = A.cols → Q.rows ≠ 0 → Q.data ≠ [] →
      (∀ a ∈ Q.data, a = none) →
      (jgsOuter A fuel i Q).rows = Q.rows + fuel ∧
        ∀ a ∈ (jgsOuter A fuel i Q).data, a = none
  | 0, _, Q, _, _, _, hall => ⟨rfl, hall⟩
  | fuel + 1, i, Q, hQc, hQr, hQd, hall => by
    rw [jgsOuter_succ]
    have hr0 : ∀ a ∈ (jrowBody 0 Q).data, a = none := by
      intro a ha
      exact hall a (List.mem_of_mem_take (by simpa [jrowBody] using ha))
    have hr0len : (jrowBody 0 Q).data.length ≠ 0 := by
      simp only [jrowBody, List.length_take, List.length_drop]
      have h1 : Q.data.length ≠ 0 := fun h => hQd (List.length_eq_zero.1 h)
      have h2 : Q.cols ≠ 0 := hQc ▸ hc
      omega
    obtain ⟨r, hr⟩ : ∃ r, Q.rows = r + 1 := ⟨Q.rows - 1, by omega⟩
    obtain ⟨q', hq', hq'r, hq'c, hq'all⟩ :=
      jgsInner_row0 (jrowBody i A) Q (jclone (jrowBody i A)) rfl
        (show (jrowBody i A).cols = Q.cols from hQc.symm) (hQc ▸ hc) hr0 hr0len r
    rw [hr, hq']
    have hnormq' : jnorm q' = none :=
      jnorm_none q' hq'r (hq'c ▸ hQc ▸ hc) hq'all
    have hrowall : ∀ a ∈ (jsmul (jdiv (some 1) (jnorm q')) q').data, a = none := by
      intro a ha
      simp only [jsmul, List.mem_map] at ha
      obtain ⟨c, _, hca⟩ := ha
      rw [← hca, hnormq', jdiv_none_right]
      exact jmul_none_right _
    have hQ2c : (jappendRow Q (jsmul (jdiv (some 1) (jnorm q')) q')).cols = A.cols := by
      show (if Q.cols = 0 then _ else Q.cols) = A.cols
      rw [if_neg (hQc ▸ hc), hQc]
    have hQ2d : (jappendRow Q (jsmul (jdiv (some 1) (jnorm q')) q')).data ≠ [] := by
      show Q.data ++ _ ≠ []
      simp [hQd]
    have hQ2all : ∀ a ∈ (jappendRow Q (jsmul (jdiv (some 1) (jnorm q')) q')).data,
        a = none := by
      intro a ha
      rcases List.mem_append.1 ha with h | h
      · exact hall a h
      · exact hrowall a h
    obtain ⟨ihr, ihall⟩ := jgsOuter_pois A hc fuel (i + 1)
      (jappendRow Q (jsmul (jdiv (some 1) (jnorm q')) q'))
      hQ2c (by show Q.rows + 1 ≠ 0; omega) hQ2d hQ2all
    refine ⟨?_, ihall⟩
    rw [ihr]
    show Q.rows + 1 + fuel = r + 1 + (fuel + 1)
    omega

/-- C10 (amended): in the junk model of IEEE arithmetic, for every well-formed
A with AT LEAST ONE COLUMN whose first row is the (finite) zero vector,
gramSchmidt never early-returns: the zero row is normalized by its own zero
norm (1/0 is non-finite and poisons the whole row), every later norm check
sees NaN and is false, and the output keeps Q.rows == A.rows, with the whole
output non-finite.  (With zero columns each row is empty, its norm is the
finite 0 <= 1e-10, and the dependency return does fire on the second row.) -/
theorem C10_zero_first_row (A : JMat) (hWF : A.data.length = A.rows * A.cols)
    (hc : A.cols ≠ 0) (h0 : ∀ k, k < A.cols → jent A 0 k = some 0) :
    (jgramSchmidt A).rows = A.rows ∧
      (0 < A.rows → ∀ a ∈ (jgramSchmidt A).data, a = none) := by
  rcases Nat.eq_zero_or_pos A.rows with hr0 | hrpos
  · constructor
    · show (jgsOuter A A.rows 0 ⟨0, 0, []⟩).rows = A.rows
      rw [hr0]
      rfl
    · intro h
      omega
  · have hlen : A.cols ≤ A.data.length := by
      rw [hWF]
      calc A.cols = 1 * A.cols := (Nat.one_mul _).symm
        _ ≤ A.rows * A.cols := Nat.mul_le_mul_right _ hrpos
    obtain ⟨m, hm⟩ : ∃ m, A.rows = m + 1 := ⟨A.rows - 1, by omega⟩
    have hq0 : ∀ j, j < (jclone (jrowBody 0 A)).cols →
        jent (jclone (jrowBody 0 A)) 0 j = some 0 := by
      intro j hj
      have hjc : j < A.cols := hj
      have h0j := h0 j hjc
      unfold jent at h0j ⊢
      simp only [Nat.zero_mul, Nat.zero_add] at h0j ⊢
      show ((A.data.drop (0 * A.cols)).take A.cols).getD j none = some 0
      rw [Nat.zero_mul, List.drop_zero]
      have hjt : j < (A.data.take A.cols).length := by
        rw [List.length_take]
        omega
      rw [List.getD_eq_getElem _ _ hjt, List.getElem_take]
      rwa [List.getD_eq_getElem _ _ (show j < A.data.length by omega)] at h0j
    have hnormq : jnorm (jclone (jrowBody 0 A)) = some 0 :=
      jnorm_zero_row _ rfl hq0
    have hstep : jgramSchmidt A = jgsOuter A m 1
        (jappendRow ⟨0, 0, []⟩
          (jsmul (jdiv (some 1) (jnorm (jclone (jrowBody 0 A))))
            (jclone (jrowBody 0 A)))) := by
      show jgsOuter A A.rows 0 ⟨0, 0, []⟩ = _
      rw [hm, jgsOuter_succ]
      rfl
    have hdiv : jdiv (some 1) (jnorm (jclone (jrowBody 0 A))) = none := by
      rw [hnormq]
      show (if (0:ℝ) = 0 then none else _) = none
      rw [if_pos rfl]
    have hrowlen : (jsmul (jdiv (some 1) (jnorm (jclone (jrowBody 0 A))))
        (jclone (jrowBody 0 A))).data.length = A.cols := by
      show (((A.data.drop (0 * A.cols)).take A.cols).map
        (fun a => jmul a (jdiv (some 1) (jnorm (jclone (jrowBody 0 A)))))).length = A.cols
      rw [List.length_map, List.length_take, List.length_drop, Nat.zero_mul]
      omega
    have hrowall : ∀ a ∈ (jsmul (jdiv (some 1) (jnorm (jclone (jrowBody 0 A))))
        (jclone (jrowBody 0 A))).data, a = none := by
      intro a ha
      simp only [jsmul, List.mem_map] at ha
      obtain ⟨c, _, hca⟩ := ha
      rw [← hca, hdiv]
      exact jmul_none_right _
    have hQ1c : (jappendRow ⟨0, 0, []⟩
        (jsmul (jdiv (some 1) (jnorm (jclone (jrowBody 0 A))))
          (jclone (jrowBody 0 A)))).cols = A.cols := by
      show (if (0:Nat) = 0 then
          (jsmul (jdiv (some 1) (jnorm (jclone (jrowBody 0 A))))
            (jclone (jrowBody 0 A))).data.length
        else (0:Nat)) = A.cols
      rw [if_pos rfl]
      exact hrowlen
    have hQ1d : (jappendRow ⟨0, 0, []⟩
        (jsmul (jdiv (some 1) (jnorm (jclone (jrowBody 0 A))))
          (jclone (jrowBody 0 A)))).data ≠ [] := by
      show ([] : List JNum) ++ _ ≠ []
      rw [List.nil_append]
      intro hnil
      rw [hnil] at hrowlen
      exact hc hrowlen.symm
    have hQ1all : ∀ a ∈ (jappendRow ⟨0, 0, []⟩
        (jsmul (jdiv (some 1) (jnorm (jclone (jrowBody 0 A))))
          (jclone (jrowBody 0 A)))).data, a = none := by
      intro a ha
      rcases List.mem_append.1 ha with h | h
      · exact absurd h (List.not_mem_nil a)
      · exact hrowall a h
    obtain ⟨hrows, hall⟩ := jgsOuter_pois A hc m 1
      (jappendRow ⟨0, 0, []⟩
        (jsmul (jdiv (some 1) (jnorm (jclone (jrowBody 0 A))))
          (jclone (jrowBody 0 A))))
      hQ1c (by show 0 + 1 ≠ 0; omega) hQ1d hQ1all
    constructor
    · rw [hstep, hrows]
      show 0 + 1 + m = A.rows
      omega
    · intro _
      rw [hstep]
      exact hall

/-- C10 counterexample: the well-formed 2 x 0 matrix has a zero first row
(vacuously: it has no entries), yet gramSchmidt returns 1 row, not 2: the
empty second row's residual has the finite norm 0, at most the tolerance, so
the dependency return does fire.  The claim needs at least one column. -/
theorem C10_zero_first_row_counterexample :
    (⟨2, 0, []⟩ : JMat).data.length = (⟨2, 0, []⟩ : JMat).rows * (⟨2, 0, []⟩ : JMat).cols ∧
    (∀ k, k < (⟨2, 0, []⟩ : JMat).cols → jent ⟨2, 0, []⟩ 0 k = some 0) ∧
    jgramSchmidt ⟨2, 0, []⟩ = (⟨1, 0, []⟩ : JMat) ∧
    ¬ (jgramSchmidt (⟨2, 0, []⟩ : JMat)).rows = (⟨2, 0, []⟩ : JMat).rows := by
  have hnorm0 : jnorm (⟨1, 0, []⟩ : JMat) = some 0 := by
    show jsqrt (some 0) = some 0
    show some (Real.sqrt 0) = some 0
    rw [Real.sqrt_zero]
  have heval : jgramSchmidt (⟨2, 0, []⟩ : JMat) = (⟨1, 0, []⟩ : JMat) := by
    show jgsOuter ⟨2, 0, []⟩ 2 0 ⟨0, 0, []⟩ = _
    rw [jgsOuter_succ]
    show jgsOuter ⟨2, 0, []⟩ 1 1
      (jappendRow ⟨0, 0, []⟩ (jsmul (jdiv (some 1) (jnorm (⟨1, 0, []⟩ : JMat)))
        (⟨1, 0, []⟩ : JMat))) = _
    rw [hnorm0]
    have hdiv0 : jdiv (some 1) (some 0) = none := by
      show (if (0:ℝ) = 0 then none else _) = none
      rw [if_pos rfl]
    rw [hdiv0]
    have happ : jappendRow ⟨0, 0, []⟩ (jsmul none (⟨1, 0, []⟩ : JMat)) =
        (⟨1, 0, []⟩ : JMat) := rfl
    rw [happ, jgsOuter_succ]
    have hinner : jgsInner (jrowBody 1 (⟨2, 0, []⟩ : JMat)) (⟨1, 0, []⟩ : JMat)
        (JMat.rows ⟨1, 0, []⟩) 0 (jclone (jrowBody 1 (⟨2, 0, []⟩ : JMat))) = none := by
      show jgsInner _ _ 1 0 _ = none
      rw [jgsInner_succ]
      have hq' : jsubBody (jclone (jrowBody 1 (⟨2, 0, []⟩ : JMat)))
          (jsmul (jdotBody (jrowBody 0 (⟨1, 0, []⟩ : JMat))
              (jrowBody 1 (⟨2, 0, []⟩ : JMat)))
            (jrowBody 0 (⟨1, 0, []⟩ : JMat))) = (⟨1, 0, []⟩ : JMat) := rfl
      rw [hq', hnorm0]
      have hleb : jleb (some 0) tol = true := by
        simp only [jleb, decide_eq_true_eq, tol]
        norm_num
      rw [if_pos hleb]
    rw [hinner]
  refine ⟨rfl, ?_, heval, ?_⟩
  · intro k hk
    exact absurd hk (Nat.not_lt.2 (Nat.zero_le k))
  · rw [heval]
    decide

/-- C10 witness: the 2 x 2 matrix with first row (0,0) and second row (1,0),
via the theorem. -/
theorem C10_zero_first_row_witness :
    (⟨2, 2, [some 0, some 0, some 1, some 0]⟩ : JMat).data.length =
      (⟨2, 2, [some 0, some 0, some 1, some 0]⟩ : JMat).rows *
        (⟨2, 2, [some 0, some 0, some 1, some 0]⟩ : JMat).cols ∧
    (⟨2, 2, [some 0, some 0, some 1, some 0]⟩ : JMat).cols ≠ 0 ∧
    (∀ k, k < (⟨2, 2, [some 0, some 0, some 1, some 0]⟩ : JMat).cols →
      jent ⟨2, 2, [some 0, some 0, some 1, some 0]⟩ 0 k = some 0) ∧
    (jgramSchmidt ⟨2, 2, [some 0, some 0, some 1, some 0]⟩).rows =
      (⟨2, 2, [some 0, some 0, some 1, some 0]⟩ : JMat).rows := by
  have h0 : ∀ k, k < (⟨2, 2, [some 0, some 0, some 1, some 0]⟩ : JMat).cols →
      jent ⟨2, 2, [some 0, some 0, some 1, some 0]⟩ 0 k = some 0 := by
    intro k hk
    have hk2 : k < 2 := hk
    interval_cases k
    · rfl
    · rfl
  exact ⟨rfl, fun h => Nat.noConfusion h, h0,
    (C10_zero_first_row ⟨2, 2, [some 0, some 0, some 1, some 0]⟩ rfl
      (fun h => Nat.noConfusion h) h0).1⟩

/-- C6 witness: concrete equal-shape matrices subtract elementwise, checked by
applying the theorem at 1 x 1 inputs. -/
theorem C6_sub_matches_sum_witness :
    WF ⟨1, 1, [2]⟩ ∧ WF ⟨1, 1, [5]⟩ ∧
      (sub ⟨1, 1, [2]⟩ ⟨1, 1, [5]⟩ = Except.ok (subBody ⟨1, 1, [2]⟩ ⟨1, 1, [5]⟩) ∧
        (subBody (⟨1, 1, [2]⟩ : Mat) ⟨1, 1, [5]⟩).rows = 1 ∧
        (subBody (⟨1, 1, [2]⟩ : Mat) ⟨1, 1, [5]⟩).cols = 1 ∧
        ∀ i j, i < 1 → j < 1 →
          ent (subBody ⟨1, 1, [2]⟩ ⟨1, 1, [5]⟩) i j =
            ent ⟨1, 1, [2]⟩ i j - ent ⟨1, 1, [5]⟩ i j) :=
  ⟨rfl, rfl, (C6_sub_matches_sum ⟨1, 1, [2]⟩ ⟨1, 1, [5]⟩ rfl rfl).1 ⟨rfl, rfl⟩⟩

end LS

end
